import Mathlib

/-!
Verification of the gofr reverse proxy (trie-based ServeMux, endpoint
forwarder, backend registry and control channel) against its specification.

The Go sources are shallowly embedded:

* `gofr.Trie` (package trie) becomes the nested inductive `GTrie α` with the
  leaf type as a parameter (the domain trie stores `Domain` leaves, the path
  trie stores `PHandler` leaves, matching how the Go code only ever stores
  `*Domain` in the outer trie and `http.Handler` in the inner one).
* Go strings are Lean `String`s; Go's byte-wise string comparison is
  `charListLt` on the character list (UTF-8 byte order and code-point order
  agree), because the built-in `String.lt` does not evaluate in the kernel.
* Go slices become `List`s; the in-place mutation done through the pointer
  returned by the child search is modelled by writing the recursively updated
  child back into the list (`replaceFirstByName`).
* `sort.Sort(byName(t.Child))` is modelled by an insertion sort; `Insert` only
  appends a node when no child has that name, so the sorted lists it produces
  have pairwise distinct names and every comparison sort agrees on them.
* loops with shrinking state (binary search, `path.Clean`) are given explicit
  fuel equal to the bound the Go loop respects, so they stay kernel-evaluable.
-/

/-! ### Byte-wise string order (Go `<` on strings) -/

/-- Lexicographic order on character lists, Go's `<` on strings. -/
def charListLt : List Char → List Char → Bool
  | [], [] => false
  | [], _ :: _ => true
  | _ :: _, [] => false
  | a :: as, b :: bs => if a < b then true else if b < a then false else charListLt as bs

/-- Go's `a < b` on strings. -/
def strLt (a b : String) : Bool := charListLt a.toList b.toList

theorem charListLt_irrefl (l : List Char) : charListLt l l = false := by
  induction l with
  | nil => rfl
  | cons a as ih => simp [charListLt, ih]

theorem charListLt_asymm {a b : List Char} (h : charListLt a b = true) :
    charListLt b a = false := by
  induction a generalizing b with
  | nil => cases b with
    | nil => simpa [charListLt] using h
    | cons x xs => simp [charListLt]
  | cons x xs ih =>
    cases b with
    | nil => simp [charListLt] at h
    | cons y ys =>
      by_cases hxy : x < y
      · have hyx : ¬ y < x := lt_asymm hxy
        simp [charListLt, hxy, hyx, lt_irrefl] at *
      · by_cases hyx : y < x
        · simp [charListLt, hxy, hyx] at h
        · have hxyeq : x = y := le_antisymm (not_lt.mp hyx) (not_lt.mp hxy)
          subst hxyeq
          simp [charListLt, lt_irrefl] at h ⊢
          exact ih h

theorem charListLt_eq_of_not {a b : List Char} (hab : charListLt a b = false)
    (hba : charListLt b a = false) : a = b := by
  induction a generalizing b with
  | nil => cases b with
    | nil => rfl
    | cons y ys => simp [charListLt] at hab
  | cons x xs ih =>
    cases b with
    | nil => simp [charListLt] at hba
    | cons y ys =>
      by_cases hxy : x < y
      · simp [charListLt, hxy] at hab
      · by_cases hyx : y < x
        · simp [charListLt, hyx, lt_asymm hyx] at hba
        · have hxyeq : x = y := le_antisymm (not_lt.mp hyx) (not_lt.mp hxy)
          subst hxyeq
          simp [charListLt, lt_irrefl] at hab hba
          simp [ih hab hba]

theorem charListLt_trans {a b c : List Char} (hab : charListLt a b = true)
    (hbc : charListLt b c = true) : charListLt a c = true := by
  induction a generalizing b c with
  | nil =>
    cases b with
    | nil => simp [charListLt] at hab
    | cons y ys =>
      cases c with
      | nil => simp [charListLt] at hbc
      | cons z zs => simp [charListLt]
  | cons x xs ih =>
    cases b with
    | nil => simp [charListLt] at hab
    | cons y ys =>
      cases c with
      | nil => simp [charListLt] at hbc
      | cons z zs =>
        by_cases hxy : x < y <;> by_cases hyz : y < z
        · have hxz : x < z := lt_trans hxy hyz
          simp [charListLt, hxz]
        · have hyzeq : y = z := by
            by_cases hzy : z < y
            · simp [charListLt, hyz, hzy] at hbc
            · exact le_antisymm (not_lt.mp hzy) (not_lt.mp hyz)
          subst hyzeq
          simp [charListLt, hxy]
        · have hxyeq : x = y := by
            by_cases hyx : y < x
            · simp [charListLt, hxy, hyx] at hab
            · exact le_antisymm (not_lt.mp hyx) (not_lt.mp hxy)
          subst hxyeq
          simp [charListLt, hyz]
        · have hxyeq : x = y := by
            by_cases hyx : y < x
            · simp [charListLt, hxy, hyx] at hab
            · exact le_antisymm (not_lt.mp hyx) (not_lt.mp hxy)
          subst hxyeq
          by_cases hzx : z < x
          · simp [charListLt, hyz, hzx] at hbc
          · have hxzeq : x = z := le_antisymm (not_lt.mp hzx) (not_lt.mp hyz)
            subst hxzeq
            simp [charListLt, lt_irrefl] at hab hbc ⊢
            exact ih hab hbc

theorem strLt_irrefl (s : String) : strLt s s = false := charListLt_irrefl _

theorem strLt_asymm {a b : String} (h : strLt a b = true) : strLt b a = false :=
  charListLt_asymm h

theorem strLt_eq_of_not {a b : String} (hab : strLt a b = false)
    (hba : strLt b a = false) : a = b := by
  have := charListLt_eq_of_not hab hba
  cases a; cases b; simpa [String.toList] using congrArg String.mk this

theorem strLt_trans {a b c : String} (hab : strLt a b = true)
    (hbc : strLt b c = true) : strLt a c = true := charListLt_trans hab hbc

/-! ### Go string helpers used by package trie

`strings.Split` / `strings.SplitAfter` with a single-character separator,
`strings.TrimSuffix`, `strings.HasSuffix`, `strings.Join`, and the package's
own `vaccuum` and `reverse` (the latter is `List.reverse`).
-/

/-- `strings.Split` on a one-character separator, on character lists. -/
def splitCharList (sep : Char) : List Char → List (List Char)
  | [] => [[]]
  | c :: rest =>
    let r := splitCharList sep rest
    if c = sep then [] :: r else (c :: r.headD []) :: r.tail

/-- `strings.Split(s, sep)` for a one-character separator. -/
def splitString (s : String) (sep : Char) : List String :=
  (splitCharList sep s.toList).map String.mk

/-- `strings.SplitAfter(s, sep)` for a one-character separator: like `Split`
but every piece except the last keeps the separator attached. -/
def splitAfter (s : String) (sep : Char) : List String :=
  let parts := splitString s sep
  parts.dropLast.map (· ++ sep.toString) ++ [parts.getLastD ""]

/-- `strings.HasSuffix(s, suf)`. -/
def strEndsWith (s suf : String) : Bool :=
  suf.toList.isSuffixOf s.toList

/-- `strings.TrimSuffix(s, suf)`. -/
def trimSuffix (s suf : String) : String :=
  if strEndsWith s suf then String.mk (s.toList.take (s.toList.length - suf.toList.length))
  else s

/-- `strings.Join(parts, sep)`. -/
def joinSep (sep : String) : List String → String
  | [] => ""
  | [s] => s
  | s :: rest => s ++ sep ++ joinSep sep rest

/-- `trie.vaccuum`: strip empty strings from both ends of the slice. -/
def vaccuum (s : List String) : List String :=
  ((s.dropWhile (· = "")).reverse.dropWhile (· = "")).reverse

example : splitString "example.com" '.' = ["example", "com"] := by decide
example : splitString "" '.' = [""] := by decide
example : splitAfter "/dir/" '/' = ["/", "dir/", ""] := by decide
example : splitAfter "/dir" '/' = ["/", "dir"] := by decide
example : splitAfter "example.com/sub/dir/" '/' = ["example.com/", "sub/", "dir/", ""] := by decide
example : vaccuum ["", "a", "", "b", ""] = ["a", "", "b"] := by decide
example : trimSuffix "example.com/" "/" = "example.com" := by decide
example : trimSuffix "dir/" "/" = "dir" := by decide

/-! ### The trie (package trie, type `Trie`)

```go
type Trie struct {
    Name  string       // path piece
    Child []*Trie      // child tries
    Leaf  http.Handler // handler for this file/dir or nil for 404
}
```

The leaf type is a parameter: the outer (domain) trie only ever stores
`*Domain` leaves and the inner (path) trie only `http.Handler` leaves.
-/

inductive GTrie (α : Type) : Type where
  | mk (name : String) (child : List (GTrie α)) (leaf : Option α) : GTrie α

def GTrie.name {α : Type} : GTrie α → String
  | .mk n _ _ => n

def GTrie.child {α : Type} : GTrie α → List (GTrie α)
  | .mk _ c _ => c

def GTrie.leaf {α : Type} : GTrie α → Option α
  | .mk _ _ l => l

/-- The binary-search loop inside `Trie.Find`:

```go
search, piece := t.Child, paths[0]
for len(search) > 0 {
    i := len(search) / 2
    cur := search[i]
    if piece == cur.Name { ... } // found
    else if piece < cur.Name { search = search[:i] }
    else { search = search[i+1:] }
}
```

The loop always halves the slice, so `l.length` iterations of fuel suffice;
fuel keeps the definition kernel-evaluable. -/
def binSearchAux {α : Type} (piece : String) : Nat → List (GTrie α) → Option (GTrie α)
  | 0, _ => none
  | _, [] => none
  | fuel + 1, l@(_ :: _) =>
    let i := l.length / 2
    match l.get? i with
    | none => none
    | some cur =>
      if piece = cur.name then some cur
      else if strLt piece cur.name then binSearchAux piece fuel (l.take i)
      else binSearchAux piece fuel (l.drop (i + 1))

def binSearch {α : Type} (piece : String) (l : List (GTrie α)) : Option (GTrie α) :=
  binSearchAux piece l.length l

/-- `Trie.Find`: deepest descendant with a non-nil leaf along the query path,
together with the number of consumed segments. Recursion is on the query. -/
def GTrie.find {α : Type} : GTrie α → List String → Nat × GTrie α
  | t, [] => (0, t)
  | t, piece :: rest =>
    match binSearch piece t.child with
    | none => (0, t)
    | some cur =>
      let nf := cur.find rest
      if nf.2.leaf.isSome then (nf.1 + 1, nf.2) else (0, t)

/-- The node reached by following the given segments child-by-child
(first child whose name matches, as the linear scan in `Insert` and the
binary search in `Find` both select on well-formed tries). -/
def GTrie.nodeAt {α : Type} : GTrie α → List String → Option (GTrie α)
  | t, [] => some t
  | t, p :: rest =>
    match t.child.find? (fun c => c.name = p) with
    | some c => c.nodeAt rest
    | none => none

/-- The leaf stored at the given path, `none` when the node does not exist
or carries no leaf. -/
def GTrie.leafAt {α : Type} (t : GTrie α) (paths : List String) : Option α :=
  match t.nodeAt paths with
  | some n => n.leaf
  | none => none

/-- Insertion sort step used to model `sort.Sort(byName(t.Child))`. -/
def insertSorted {α : Type} (c : GTrie α) : List (GTrie α) → List (GTrie α)
  | [] => [c]
  | d :: ds => if strLt c.name d.name then c :: d :: ds else d :: insertSorted c ds

/-- `sort.Sort(byName(l))`, modelled as insertion sort (`Insert` only sorts
lists whose names are pairwise distinct, on which every comparison sort
agrees). -/
def sortByName {α : Type} (l : List (GTrie α)) : List (GTrie α) :=
  l.foldr insertSorted []

/-- Write the updated child (mutated in place through a pointer in Go) back
over the first child carrying its name. -/
def replaceFirstByName {α : Type} (p : String) (c' : GTrie α) : List (GTrie α) → List (GTrie α)
  | [] => []
  | d :: ds => if d.name = p then c' :: ds else d :: replaceFirstByName p c' ds

/-- The error wrap a failing recursive `Insert` applies on the way out:

```go
if err := found.Insert(paths[1:], leaf); err != nil {
    if t.Name == "" { return err }
    return fmt.Errorf("%s: %s", t.Name, err)
}
```
-/
def wrapInsErr (nm : String) : Option String → Option String
  | some e => some (if nm = "" then e else nm ++ ": " ++ e)
  | none => none

/-- `Trie.Insert`. Returns the error (`none` on success) and the trie as left
by the call — Go mutates in place, so nodes created before a deeper failure
stay. Error strings are built exactly as the Go code does:
`"<name>: leaf already exists"` at the clash, wrapped in `"<name>: "` by each
ancestor whose name is non-empty. -/
def GTrie.insert {α : Type} : GTrie α → List String → α → Option String × GTrie α
  | .mk nm cs lf, [], v =>
    match lf with
    | some l => (some (nm ++ ": leaf already exists"), .mk nm cs (some l))
    | none => (none, .mk nm cs (some v))
  | .mk nm cs lf, p :: rest, v =>
    let found? := cs.find? (fun c => c.name = p)
    let cs1 : List (GTrie α) :=
      match found? with
      | some _ => cs
      | none => sortByName (cs ++ [GTrie.mk p [] none])
    let found : GTrie α :=
      match found? with
      | some c => c
      | none => GTrie.mk p [] none
    let ef := found.insert rest v
    (wrapInsErr nm ef.1, .mk nm (replaceFirstByName p ef.2 cs1) lf)

/-- The error message `Insert` produces when a leaf already exists at the
path: the names along the traversal joined by `": "`, empty names skipped at
wrap time exactly as in the source. -/
def insertErrMsg : String → List String → String
  | nm, [] => nm ++ ": leaf already exists"
  | nm, p :: rest =>
    if nm = "" then insertErrMsg p rest else nm ++ ": " ++ insertErrMsg p rest

/-- Well-formed tries: child names strictly sorted (hence distinct), at every
level. `Insert` keeps this invariant and `NewDomain`/`NewServeMux` start with
it; `Find`'s binary search is only claimed on such tries. -/
inductive GTrie.WF {α : Type} : GTrie α → Prop where
  | mk (nm : String) (cs : List (GTrie α)) (lf : Option α)
      (hsorted : cs.Pairwise (fun a b => strLt a.name b.name = true))
      (hch : ∀ c ∈ cs, GTrie.WF c) : GTrie.WF (.mk nm cs lf)

theorem GTrie.WF.sorted {α : Type} {t : GTrie α} (h : t.WF) :
    t.child.Pairwise (fun a b => strLt a.name b.name = true) := by
  cases h; assumption

theorem GTrie.WF.children {α : Type} {t : GTrie α} (h : t.WF) :
    ∀ c ∈ t.child, GTrie.WF c := by
  cases h; assumption

/-! Sanity checks mirroring `TestFind` and `TestInsert` from the repository's
test suite (leaves are numbered stand-ins for the text handlers). -/

def testFindTrie : GTrie Nat :=
  .mk "" [.mk "foo" [.mk "bar" [] (some 2), .mk "baz" [] (some 3)] (some 1)] (some 0)

example : (testFindTrie.find []).1 = 0 ∧ (testFindTrie.find []).2.leaf = some 0 := by decide
example : (testFindTrie.find ["fox"]).1 = 0 ∧ (testFindTrie.find ["fox"]).2.leaf = some 0 := by
  decide
example : (testFindTrie.find ["foo"]).1 = 1 ∧ (testFindTrie.find ["foo"]).2.leaf = some 1 := by
  decide
example : (testFindTrie.find ["foo", "bar"]).1 = 2 ∧
    (testFindTrie.find ["foo", "bar"]).2.leaf = some 2 := by decide
example : (testFindTrie.find ["foo", "baz"]).1 = 2 ∧
    (testFindTrie.find ["foo", "baz"]).2.leaf = some 3 := by decide

def testInsertTrie0 : GTrie Nat := .mk "" [] (some 404)

example : (testInsertTrie0.insert ["foo", "baz"] 1).1 = none := rfl
example :
    (testInsertTrie0.insert ["foo", "baz"] 1).2 =
      .mk "" [.mk "foo" [.mk "baz" [] (some 1)] none] (some 404) := rfl

def testInsertTrie2 : GTrie Nat :=
  ((testInsertTrie0.insert ["foo", "baz"] 1).2.insert ["foo", "bar"] 2).2

example :
    testInsertTrie2 =
      .mk "" [.mk "foo" [.mk "bar" [] (some 2), .mk "baz" [] (some 1)] none] (some 404) := rfl

example :
    (testInsertTrie2.insert ["foo", "baz"] 9).1 = some "foo: baz: leaf already exists" := rfl
example : (testInsertTrie2.insert ["foo", "baz"] 9).2 = testInsertTrie2 := rfl

example : insertErrMsg "" ["foo", "baz"] = "foo: baz: leaf already exists" := by decide

/-! ### Correctness of the binary search against the linear scan -/

theorem binSearchAux_some {α : Type} {piece : String} {fuel : Nat} {l : List (GTrie α)}
    {c : GTrie α} (h : binSearchAux piece fuel l = some c) : c ∈ l ∧ c.name = piece := by
  induction fuel generalizing l with
  | zero => simp [binSearchAux] at h
  | succ fuel ih =>
    cases l with
    | nil => simp [binSearchAux] at h
    | cons a as =>
      rw [binSearchAux] at h
      set l := a :: as with hl
      set i := l.length / 2 with hi
      have hilt : i < l.length := by
        simp [hl, hi]
        omega
      rw [List.get?_eq_get hilt] at h
      set cur := l.get ⟨i, hilt⟩ with hcur
      by_cases heq : piece = cur.name
      · simp [heq] at h
        subst h
        exact ⟨List.get_mem l _ _, heq.symm⟩
      · by_cases hlt : strLt piece cur.name
        · simp [heq, hlt] at h
          have := ih h
          exact ⟨List.mem_of_mem_take this.1, this.2⟩
        · simp [heq, hlt] at h
          have := ih h
          exact ⟨List.mem_of_mem_drop this.1, this.2⟩

theorem binSearchAux_none {α : Type} {piece : String} {fuel : Nat} {l : List (GTrie α)}
    (hsorted : l.Pairwise (fun a b => strLt a.name b.name = true))
    (hfuel : l.length ≤ fuel)
    (h : binSearchAux piece fuel l = none) : ∀ c ∈ l, c.name ≠ piece := by
  induction fuel generalizing l with
  | zero =>
    have hl : l = [] := List.length_eq_zero.mp (Nat.le_zero.mp hfuel)
    subst hl
    simp
  | succ fuel ih =>
    cases l with
    | nil => simp
    | cons a as =>
      rw [binSearchAux] at h
      set l := a :: as with hl
      set i := l.length / 2 with hi
      have hilt : i < l.length := by
        simp [hl, hi]
        omega
      rw [List.get?_eq_get hilt] at h
      set cur := l.get ⟨i, hilt⟩ with hcur
      have hgetl : ∀ (j : Nat) (hj : j < l.length), l.get ⟨j, hj⟩ ∈ l := fun j hj =>
        List.get_mem l j hj
      intro c hc hcn
      obtain ⟨⟨j, hj⟩, hcj⟩ := List.mem_iff_get.mp hc
      by_cases heq : piece = cur.name
      · simp [heq] at h
      · by_cases hlt : strLt piece cur.name
        · simp [heq, hlt] at h
          have htk : (l.take i).length ≤ fuel := by
            have h2 : (l.take i).length = min i l.length := List.length_take i l
            omega
          have hstk : (l.take i).Pairwise (fun a b => strLt a.name b.name = true) :=
            hsorted.sublist (List.take_sublist i l)
          have hnone := ih hstk htk h
          rcases lt_trichotomy j i with hji | hji | hji
          · -- c is inside l.take i
            have hmem : c ∈ l.take i := by
              have hjtk : j < (l.take i).length := by
                have h2 : (l.take i).length = min i l.length := List.length_take i l
                omega
              have : (l.take i).get ⟨j, hjtk⟩ = l.get ⟨j, hj⟩ := List.get_take' l
              refine hcj ▸ this ▸ List.get_mem _ j hjtk
            exact hnone c hmem hcn
          · subst hji
            exact heq (by rw [← hcn, ← hcj, hcur])
          · -- cur.name < c.name, so piece < c.name, contradicting c.name = piece
            have hrel : strLt cur.name c.name = true := by
              have := List.pairwise_iff_get.mp hsorted ⟨i, hilt⟩ ⟨j, hj⟩ hji
              rw [← hcj]
              exact this
            have hfin : strLt piece c.name = true := strLt_trans hlt hrel
            rw [hcn] at hfin
            rw [strLt_irrefl piece] at hfin
            exact Bool.false_ne_true hfin
        · simp [heq, hlt] at h
          have hcurlt : strLt cur.name piece = true := by
            rcases Bool.eq_false_or_eq_true (strLt cur.name piece) with ht | hf
            · exact ht
            · have hpl : strLt piece cur.name = false := by
                simpa using hlt
              exact absurd (strLt_eq_of_not hpl hf) heq
          have hdr : (l.drop (i + 1)).length ≤ fuel := by
            have h2 : (l.drop (i + 1)).length = l.length - (i + 1) := List.length_drop (i + 1) l
            omega
          have hsdr : (l.drop (i + 1)).Pairwise (fun a b => strLt a.name b.name = true) :=
            hsorted.sublist (List.drop_sublist (i + 1) l)
          have hnone := ih hsdr hdr h
          rcases lt_trichotomy j i with hji | hji | hji
          · -- c.name < cur.name < piece
            have hrel : strLt c.name cur.name = true := by
              have := List.pairwise_iff_get.mp hsorted ⟨j, hj⟩ ⟨i, hilt⟩ hji
              rw [← hcj]
              exact this
            have hfin : strLt c.name piece = true := strLt_trans hrel hcurlt
            rw [hcn] at hfin
            rw [strLt_irrefl piece] at hfin
            exact Bool.false_ne_true hfin
          · subst hji
            exact heq (by rw [← hcn, ← hcj, hcur])
          · -- c is inside l.drop (i+1)
            have hjdr : j - (i + 1) < (l.drop (i + 1)).length := by
              have h2 : (l.drop (i + 1)).length = l.length - (i + 1) := List.length_drop (i + 1) l
              omega
            have hmem : c ∈ l.drop (i + 1) := by
              have hstep : (l.drop (i + 1)).get ⟨j - (i + 1), hjdr⟩ = l.get ⟨j, hj⟩ := by
                rw [List.get_drop']
                congr 1
                simp [Fin.ext_iff]
                omega
              refine hcj ▸ hstep ▸ List.get_mem _ _ _
            exact hnone c hmem hcn

theorem find?_eq_some_of_sorted {α : Type} {cs : List (GTrie α)} {c : GTrie α} {piece : String}
    (hsorted : cs.Pairwise (fun a b => strLt a.name b.name = true))
    (hmem : c ∈ cs) (hname : c.name = piece) :
    cs.find? (fun d => d.name = piece) = some c := by
  induction cs with
  | nil => simp at hmem
  | cons d ds ih =>
    rcases List.mem_cons.mp hmem with hcd | hcds
    · subst hcd
      rw [List.find?_cons_of_pos _ (by simp [hname])]
    · have hd := (List.pairwise_cons.mp hsorted).1 c hcds
      by_cases hdp : d.name = piece
      · -- impossible: d.name = piece = c.name but d.name < c.name strictly
        rw [hdp, hname] at hd
        rw [strLt_irrefl piece] at hd
        exact absurd hd Bool.false_ne_true
      · rw [List.find?_cons_of_neg _ (by simp [hdp])]
        exact ih (List.pairwise_cons.mp hsorted).2 hcds

theorem binSearch_eq_find? {α : Type} (piece : String) {cs : List (GTrie α)}
    (hsorted : cs.Pairwise (fun a b => strLt a.name b.name = true)) :
    binSearch piece cs = cs.find? (fun c => c.name = piece) := by
  rcases hbs : binSearch piece cs with _ | c
  · have := binSearchAux_none hsorted (Nat.le_refl _) hbs
    symm
    rw [List.find?_eq_none]
    intro x hx
    simp [this x hx]
  · obtain ⟨hmem, hname⟩ := binSearchAux_some hbs
    exact (find?_eq_some_of_sorted hsorted hmem hname).symm

theorem nodeAt_cons {α : Type} (t : GTrie α) (p : String) (rest : List String) :
    t.nodeAt (p :: rest) =
      match t.child.find? (fun c => c.name = p) with
      | some c => c.nodeAt rest
      | none => none := by
  cases t
  rfl

theorem find_nil {α : Type} (t : GTrie α) : t.find [] = (0, t) := rfl

/-- Characterization of `Trie.Find` on well-formed tries: it returns the
deepest node along the query path that carries a leaf, together with the
number of segments consumed to reach it, and falls back to `(0, t)` when no
leaf-bearing descendant lies on the path. -/
theorem find_spec {α : Type} (q : List String) (t : GTrie α) (hwf : t.WF) :
    (t.find q).1 ≤ q.length ∧
    ((t.find q).1 = 0 → (t.find q).2 = t) ∧
    (0 < (t.find q).1 →
      t.nodeAt (q.take (t.find q).1) = some (t.find q).2 ∧ (t.find q).2.leaf.isSome) ∧
    (∀ k, (t.find q).1 < k → k ≤ q.length →
      ∀ node, t.nodeAt (q.take k) = some node → node.leaf = none) := by
  induction q generalizing t with
  | nil =>
    refine ⟨Nat.le_refl _, fun _ => rfl, fun h0 => absurd h0 (by simp [find_nil]), ?_⟩
    intro k hk1 hk2
    rw [find_nil] at hk1
    simp at hk2
    omega
  | cons piece rest ih =>
    have hbs := binSearch_eq_find? piece hwf.sorted
    rcases hfound : t.child.find? (fun c => c.name = piece) with _ | cur
    · -- no child matches: Find returns (0, t) and no node exists at any depth ≥ 1
      have hfind : t.find (piece :: rest) = (0, t) := by
        rw [GTrie.find, hbs, hfound]
      refine ⟨by rw [hfind]; simp, fun _ => by rw [hfind], ?_, ?_⟩
      · rw [hfind]
        intro h0
        simp at h0
      · intro k hk1 hk2 node hnode
        rw [hfind] at hk1
        cases k with
        | zero => omega
        | succ k' =>
          rw [List.take_succ_cons, nodeAt_cons, hfound] at hnode
          exact absurd hnode (by simp)
    · -- a unique child matches; recurse
      have hmem : cur ∈ t.child := List.mem_of_find?_eq_some hfound
      have hcurwf : cur.WF := hwf.children cur hmem
      have ihc := ih cur hcurwf
      by_cases hleaf : (cur.find rest).2.leaf.isSome
      · have hfind : t.find (piece :: rest) = ((cur.find rest).1 + 1, (cur.find rest).2) := by
          rw [GTrie.find, hbs, hfound]
          simp [hleaf]
        refine ⟨?_, ?_, ?_, ?_⟩
        · rw [hfind]
          simpa using Nat.succ_le_succ ihc.1
        · rw [hfind]
          intro h0
          simp at h0
        · rw [hfind]
          intro _
          rw [List.take_succ_cons, nodeAt_cons, hfound]
          rcases Nat.eq_zero_or_pos (cur.find rest).1 with hn0 | hnpos
          · have hf'cur : (cur.find rest).2 = cur := ihc.2.1 hn0
            rw [hn0, hf'cur]
            simp only [List.take_zero]
            exact ⟨rfl, hf'cur ▸ hleaf⟩
          · exact ⟨(ihc.2.2.1 hnpos).1, hleaf⟩
        · rw [hfind]
          intro k hk1 hk2 node hnode
          cases k with
          | zero => omega
          | succ k' =>
            rw [List.take_succ_cons, nodeAt_cons, hfound] at hnode
            exact ihc.2.2.2 k' (by omega) (by simpa using hk2) node hnode
      · -- the recursion found nothing leaf-bearing: break, return (0, t)
        have hleaf' : (cur.find rest).2.leaf = none :=
          Option.not_isSome_iff_eq_none.mp (by simpa using hleaf)
        have hfind : t.find (piece :: rest) = (0, t) := by
          rw [GTrie.find, hbs, hfound]
          simp [hleaf']
        refine ⟨by rw [hfind]; simp, fun _ => by rw [hfind], ?_, ?_⟩
        · rw [hfind]
          intro h0
          simp at h0
        · intro k hk1 hk2 node hnode
          rw [hfind] at hk1
          cases k with
          | zero => omega
          | succ k' =>
            rw [List.take_succ_cons, nodeAt_cons, hfound] at hnode
            have hn0 : (cur.find rest).1 = 0 := by
              by_contra hne
              have := (ihc.2.2.1 (Nat.pos_of_ne_zero hne)).2
              rw [hleaf'] at this
              simp at this
            have hf'cur : (cur.find rest).2 = cur := ihc.2.1 hn0
            cases k' with
            | zero =>
              simp [GTrie.nodeAt] at hnode
              rw [← hnode, ← hf'cur]
              exact hleaf'
            | succ k'' =>
              refine ihc.2.2.2 (k'' + 1) (by omega) (by simpa using hk2) node ?_
              simpa using hnode

/-! ### Lemmas about `Insert`'s helpers -/

theorem mem_insertSorted {α : Type} {c y : GTrie α} {l : List (GTrie α)} :
    y ∈ insertSorted c l ↔ y = c ∨ y ∈ l := by
  induction l with
  | nil => simp [insertSorted]
  | cons d ds ih =>
    by_cases h : strLt c.name d.name
    · rw [insertSorted, if_pos h]
      constructor
      · intro hy
        rcases List.mem_cons.mp hy with rfl | hy2
        · exact Or.inl rfl
        · exact Or.inr hy2
      · intro hy
        rcases hy with rfl | hy2
        · exact List.mem_cons_self _ _
        · exact List.mem_cons_of_mem c hy2
    · rw [insertSorted, if_neg h]
      constructor
      · intro hy
        rcases List.mem_cons.mp hy with rfl | hy2
        · exact Or.inr (List.mem_cons_self _ _)
        · rcases ih.mp hy2 with rfl | hy3
          · exact Or.inl rfl
          · exact Or.inr (List.mem_cons_of_mem d hy3)
      · intro hy
        rcases hy with rfl | hy2
        · exact List.mem_cons_of_mem d (ih.mpr (Or.inl rfl))
        · rcases List.mem_cons.mp hy2 with rfl | hy3
          · exact List.mem_cons_self _ _
          · exact List.mem_cons_of_mem d (ih.mpr (Or.inr hy3))

theorem mem_sortByName {α : Type} {y : GTrie α} {l : List (GTrie α)} :
    y ∈ sortByName l ↔ y ∈ l := by
  induction l with
  | nil => simp [sortByName]
  | cons d ds ih =>
    simp only [sortByName, List.foldr] at *
    rw [mem_insertSorted, ih]
    simp

theorem insertSorted_pairwise {α : Type} {c : GTrie α} {l : List (GTrie α)}
    (hl : l.Pairwise (fun a b => strLt a.name b.name = true))
    (hc : ∀ d ∈ l, strLt c.name d.name = true ∨ strLt d.name c.name = true) :
    (insertSorted c l).Pairwise (fun a b => strLt a.name b.name = true) := by
  induction l with
  | nil => simp [insertSorted]
  | cons d ds ih =>
    obtain ⟨hd, hds⟩ := List.pairwise_cons.mp hl
    by_cases h : strLt c.name d.name
    · rw [insertSorted, if_pos h]
      refine List.pairwise_cons.mpr ⟨?_, hl⟩
      intro y hy
      rcases List.mem_cons.mp hy with rfl | hyds
      · exact h
      · exact strLt_trans h (hd y hyds)
    · rw [insertSorted, if_neg h]
      refine List.pairwise_cons.mpr ⟨?_, ih hds (fun e he => hc e (List.mem_cons_of_mem d he))⟩
      intro y hy
      rcases mem_insertSorted.mp hy with rfl | hyds
      · rcases hc d (List.mem_cons_self d ds) with h1 | h2
        · exact absurd h1 h
        · exact h2
      · exact hd y hyds

theorem sortByName_pairwise {α : Type} {l : List (GTrie α)}
    (hdist : l.Pairwise (fun a b => a.name ≠ b.name)) :
    (sortByName l).Pairwise (fun a b => strLt a.name b.name = true) := by
  induction l with
  | nil => simp [sortByName]
  | cons c ls ih =>
    obtain ⟨hd, hds⟩ := List.pairwise_cons.mp hdist
    refine insertSorted_pairwise (ih hds) ?_
    intro d hdmem
    have hne : c.name ≠ d.name := hd d (mem_sortByName.mp hdmem)
    rcases Bool.eq_false_or_eq_true (strLt c.name d.name) with h1 | h1
    · exact Or.inl h1
    · rcases Bool.eq_false_or_eq_true (strLt d.name c.name) with h2 | h2
      · exact Or.inr h2
      · exact absurd (strLt_eq_of_not h1 h2) hne

theorem mem_replaceFirstByName {α : Type} {a : String} {c' y : GTrie α} {l : List (GTrie α)}
    (h : y ∈ replaceFirstByName a c' l) :
    y ∈ l ∨ (y = c' ∧ ∃ x ∈ l, x.name = a) := by
  induction l with
  | nil => simp [replaceFirstByName] at h
  | cons d ds ih =>
    by_cases hd : d.name = a
    · rw [replaceFirstByName, if_pos hd] at h
      rcases List.mem_cons.mp h with rfl | hyds
      · exact Or.inr ⟨rfl, d, List.mem_cons_self d ds, hd⟩
      · exact Or.inl (List.mem_cons_of_mem d hyds)
    · rw [replaceFirstByName, if_neg hd] at h
      rcases List.mem_cons.mp h with rfl | hyds
      · exact Or.inl (List.mem_cons_self y ds)
      · rcases ih hyds with h1 | ⟨h1, x, hx, hxa⟩
        · exact Or.inl (List.mem_cons_of_mem d h1)
        · exact Or.inr ⟨h1, x, List.mem_cons_of_mem d hx, hxa⟩

theorem map_name_replaceFirstByName {α : Type} {a : String} {c' : GTrie α}
    (hc' : c'.name = a) (l : List (GTrie α)) :
    (replaceFirstByName a c' l).map GTrie.name = l.map GTrie.name := by
  induction l with
  | nil => rfl
  | cons d ds ih =>
    by_cases hd : d.name = a
    · rw [replaceFirstByName, if_pos hd]
      simp [hc', hd]
    · rw [replaceFirstByName, if_neg hd]
      simp [ih]

theorem pairwise_replaceFirstByName {α : Type} {a : String} {c' : GTrie α} {l : List (GTrie α)}
    (hc' : c'.name = a)
    (hl : l.Pairwise (fun x y => strLt x.name y.name = true)) :
    (replaceFirstByName a c' l).Pairwise (fun x y => strLt x.name y.name = true) := by
  induction l with
  | nil => simpa [replaceFirstByName] using hl
  | cons d ds ih =>
    obtain ⟨hd, hds⟩ := List.pairwise_cons.mp hl
    by_cases hda : d.name = a
    · rw [replaceFirstByName, if_pos hda]
      refine List.pairwise_cons.mpr ⟨?_, hds⟩
      intro y hy
      rw [hc', ← hda]
      exact hd y hy
    · rw [replaceFirstByName, if_neg hda]
      refine List.pairwise_cons.mpr ⟨?_, ih hds⟩
      intro y hy
      rcases mem_replaceFirstByName hy with h1 | ⟨rfl, x, hx, hxa⟩
      · exact hd y h1
      · rw [hc', ← hxa]
        exact hd x hx

theorem replaceFirstByName_self {α : Type} {a : String} {c : GTrie α} {l : List (GTrie α)}
    (h : l.find? (fun d => d.name = a) = some c) :
    replaceFirstByName a c l = l := by
  induction l with
  | nil => simp at h
  | cons d ds ih =>
    by_cases hd : d.name = a
    · rw [List.find?_cons_of_pos _ (by simp [hd])] at h
      rw [replaceFirstByName, if_pos hd, Option.some_inj.mp h]
    · rw [List.find?_cons_of_neg _ (by simp [hd])] at h
      rw [replaceFirstByName, if_neg hd, ih h]

theorem find?_replaceFirstByName_ne {α : Type} {a b : String} {c' : GTrie α}
    (hc' : c'.name = a) (hba : b ≠ a) (l : List (GTrie α)) :
    (replaceFirstByName a c' l).find? (fun d => d.name = b) =
      l.find? (fun d => d.name = b) := by
  induction l with
  | nil => rfl
  | cons d ds ih =>
    by_cases hd : d.name = a
    · rw [replaceFirstByName, if_pos hd]
      rw [List.find?_cons_of_neg _ (by simp [hc']; exact fun h => hba h.symm),
        List.find?_cons_of_neg _ (by simp [hd]; exact fun h => hba h.symm)]
    · rw [replaceFirstByName, if_neg hd]
      by_cases hdb : d.name = b
      · rw [List.find?_cons_of_pos _ (by simp [hdb]), List.find?_cons_of_pos _ (by simp [hdb])]
      · rw [List.find?_cons_of_neg _ (by simp [hdb]), List.find?_cons_of_neg _ (by simp [hdb]),
          ih]

theorem find?_replaceFirstByName_self {α : Type} {a : String} {c c' : GTrie α}
    {l : List (GTrie α)} (hc' : c'.name = a)
    (h : l.find? (fun d => d.name = a) = some c) :
    (replaceFirstByName a c' l).find? (fun d => d.name = a) = some c' := by
  induction l with
  | nil => simp at h
  | cons d ds ih =>
    by_cases hd : d.name = a
    · rw [replaceFirstByName, if_pos hd]
      rw [List.find?_cons_of_pos _ (by simp [hc'])]
    · rw [List.find?_cons_of_neg _ (by simp [hd])] at h
      rw [replaceFirstByName, if_neg hd, List.find?_cons_of_neg _ (by simp [hd]), ih h]

theorem find?_eq_of_unique {α : Type} {p : GTrie α → Bool} {x : GTrie α} {l : List (GTrie α)}
    (hmem : x ∈ l) (hx : p x = true) (huniq : ∀ y ∈ l, p y = true → y = x) :
    l.find? p = some x := by
  induction l with
  | nil => simp at hmem
  | cons d ds ih =>
    by_cases hd : p d = true
    · rw [List.find?_cons_of_pos _ hd]
      rw [huniq d (List.mem_cons_self d ds) hd]
    · rw [List.find?_cons_of_neg _ (by simpa using hd)]
      rcases List.mem_cons.mp hmem with rfl | hmem'
      · exact absurd hx hd
      · exact ih hmem' (fun y hy hpy => huniq y (List.mem_cons_of_mem d hy) hpy)

/-! ### Behaviour of `Insert` -/

theorem insert_nil_some {α : Type} (nm : String) (cs : List (GTrie α)) (l v : α) :
    (GTrie.mk nm cs (some l)).insert [] v =
      (some (nm ++ ": leaf already exists"), .mk nm cs (some l)) := rfl

theorem insert_nil_none {α : Type} (nm : String) (cs : List (GTrie α)) (v : α) :
    (GTrie.mk nm cs none).insert [] v = (none, .mk nm cs (some v)) := rfl

theorem insert_cons_found {α : Type} {nm : String} {cs : List (GTrie α)} {lf : Option α}
    {a : String} {rest : List String} {v : α} {c : GTrie α}
    (h : cs.find? (fun d => d.name = a) = some c) :
    (GTrie.mk nm cs lf).insert (a :: rest) v =
      (wrapInsErr nm (c.insert rest v).1,
       .mk nm (replaceFirstByName a (c.insert rest v).2 cs) lf) := by
  rw [GTrie.insert]
  simp only [h]

theorem insert_cons_missing {α : Type} {nm : String} {cs : List (GTrie α)} {lf : Option α}
    {a : String} {rest : List String} {v : α}
    (h : cs.find? (fun d => d.name = a) = none) :
    (GTrie.mk nm cs lf).insert (a :: rest) v =
      (wrapInsErr nm ((GTrie.mk a [] none).insert rest v).1,
       .mk nm (replaceFirstByName a ((GTrie.mk a [] none).insert rest v).2
                (sortByName (cs ++ [GTrie.mk a [] none]))) lf) := by
  rw [GTrie.insert]
  simp only [h]

theorem insert_name {α : Type} (t : GTrie α) (p : List String) (v : α) :
    ((t.insert p v).2).name = t.name := by
  cases t with
  | mk nm cs lf =>
    cases p with
    | nil => cases lf <;> rfl
    | cons a rest =>
      rcases h : cs.find? (fun d => d.name = a) with _ | c
      · rw [insert_cons_missing h]
        rfl
      · rw [insert_cons_found h]
        rfl

/-- On well-formed tries, `Insert` at a path whose node already carries a
leaf fails with the path-naming error and returns the trie unchanged —
the whole path pre-exists, so no node is created and nothing is mutated. -/
theorem insert_err {α : Type} {t : GTrie α} {p : List String} {w : α}
    (hsome : t.leafAt p = some w) (v : α) :
    t.insert p v = (some (insertErrMsg t.name p), t) := by
  induction p generalizing t with
  | nil =>
    cases t with
    | mk nm cs lf =>
      have hlf : lf = some w := by
        simpa [GTrie.leafAt, GTrie.nodeAt, GTrie.leaf] using hsome
      subst hlf
      rw [insert_nil_some]
      rfl
  | cons a rest ih =>
    cases t with
    | mk nm cs lf =>
      rcases hfound : cs.find? (fun d => d.name = a) with _ | c
      · exfalso
        rw [GTrie.leafAt, nodeAt_cons] at hsome
        simp only [GTrie.child, hfound] at hsome
        simp at hsome
      · have hca : c.name = a := by
          have := List.find?_some hfound
          simpa using this
        have hcleaf : c.leafAt rest = some w := by
          rw [GTrie.leafAt, nodeAt_cons] at hsome
          simp only [GTrie.child, hfound] at hsome
          exact hsome
        rw [insert_cons_found hfound, ih hcleaf]
        rw [replaceFirstByName_self hfound]
        have hmsg : wrapInsErr nm (some (insertErrMsg c.name rest)) =
            some (insertErrMsg nm (a :: rest)) := by
          rw [insertErrMsg, hca]
          by_cases hnm : nm = ""
          · simp [wrapInsErr, hnm]
          · simp [wrapInsErr, hnm]
        rw [hmsg]
        rfl

theorem leafAt_cons {α : Type} (t : GTrie α) (b : String) (q' : List String) :
    t.leafAt (b :: q') =
      match t.child.find? (fun c => c.name = b) with
      | some c => c.leafAt q'
      | none => none := by
  rw [GTrie.leafAt, nodeAt_cons]
  rcases h : t.child.find? (fun c => c.name = b) with _ | c
  · rw [h]
  · rw [h]
    rfl

theorem leafAt_nil {α : Type} (t : GTrie α) : t.leafAt [] = t.leaf := rfl

theorem pairwise_ne_of_sorted {α : Type} {l : List (GTrie α)}
    (h : l.Pairwise (fun a b => strLt a.name b.name = true)) :
    l.Pairwise (fun a b => a.name ≠ b.name) := by
  refine h.imp ?_
  intro a b hab heq
  rw [heq, strLt_irrefl] at hab
  exact Bool.false_ne_true hab

theorem name_eq_unique {α : Type} {l : List (GTrie α)} {x y : GTrie α}
    (h : l.Pairwise (fun a b => a.name ≠ b.name))
    (hx : x ∈ l) (hy : y ∈ l) (hname : x.name = y.name) : x = y := by
  by_contra hne
  have hsym : Symmetric (fun a b : GTrie α => a.name ≠ b.name) := by
    intro a b hab heq
    exact hab heq.symm
  exact (h.forall hsym hx hy hne) hname

theorem leafAt_empty_node {α : Type} (a : String) (q : List String) :
    (GTrie.mk a ([] : List (GTrie α)) none).leafAt q = none := by
  cases q with
  | nil => rfl
  | cons b q' =>
    rw [leafAt_cons]
    simp [GTrie.child]

theorem empty_node_WF {α : Type} (a : String) : (GTrie.mk a ([] : List (GTrie α)) none).WF :=
  .mk a [] none (by simp) (by simp)

/-- `find?` by name is stable under re-sorting `cs ++ [new]` when the new
node's name is fresh: the fresh node is hit exactly for its own name, and any
other name still resolves to its unique carrier. -/
theorem find?_sortByName_append {α : Type} {cs : List (GTrie α)} {a : String} (b : String)
    (hdist : cs.Pairwise (fun x y => x.name ≠ y.name))
    (hnotin : ∀ x ∈ cs, ¬ (x.name = a)) :
    (sortByName (cs ++ [GTrie.mk a ([] : List (GTrie α)) none])).find? (fun d => d.name = b) =
      if b = a then some (GTrie.mk a [] none) else cs.find? (fun d => d.name = b) := by
  by_cases hba : b = a
  · subst hba
    rw [if_pos rfl]
    refine find?_eq_of_unique ?_ (by simp [GTrie.name]) ?_
    · rw [mem_sortByName]
      simp
    · intro y hy hpy
      rcases (by simpa using mem_sortByName.mp hy : y ∈ cs ∨ y = GTrie.mk b [] none)
        with hy1 | hy2
      · exact absurd (by simpa using hpy) (hnotin y hy1)
      · exact hy2
  · rw [if_neg hba]
    rcases hb : cs.find? (fun d => d.name = b) with _ | x
    · rw [hb, List.find?_eq_none]
      intro y hy
      rcases (by simpa using mem_sortByName.mp hy : y ∈ cs ∨ y = GTrie.mk a [] none)
        with hy1 | hy2
      · simpa using List.find?_eq_none.mp hb y hy1
      · subst hy2
        simp only [GTrie.name, decide_eq_true_eq]
        exact fun h => hba h.symm
    · have hxmem : x ∈ cs := List.mem_of_find?_eq_some hb
      have hxname : x.name = b := by simpa using List.find?_some hb
      rw [hb]
      refine find?_eq_of_unique ?_ (by simp [hxname]) ?_
      · rw [mem_sortByName]
        simp [hxmem]
      · intro y hy hpy
        rcases (by simpa using mem_sortByName.mp hy : y ∈ cs ∨ y = GTrie.mk a [] none)
          with hy1 | hy2
        · exact name_eq_unique hdist hy1 hxmem (by rw [hxname]; simpa using hpy)
        · exfalso
          subst hy2
          exact hba ((by simpa [GTrie.name] using hpy : a = b)).symm

/-- On well-formed tries, `Insert` at a leaf-free path succeeds, sets exactly
that leaf, and leaves the leaf at every other path untouched. -/
theorem insert_success {α : Type} {t : GTrie α} (hwf : t.WF) {p : List String} (v : α)
    (hnone : t.leafAt p = none) :
    (t.insert p v).1 = none ∧
    (t.insert p v).2.leafAt p = some v ∧
    ∀ q, q ≠ p → (t.insert p v).2.leafAt q = t.leafAt q := by
  induction p generalizing t with
  | nil =>
    cases t with
    | mk nm cs lf =>
      have hlf : lf = none := by
        simpa [leafAt_nil, GTrie.leaf] using hnone
      subst hlf
      rw [insert_nil_none]
      refine ⟨rfl, rfl, ?_⟩
      intro q hq
      cases q with
      | nil => exact absurd rfl hq
      | cons b q' =>
        rw [leafAt_cons, leafAt_cons]
        rfl
  | cons a rest ih =>
    cases t with
    | mk nm cs lf =>
      rcases hfound : cs.find? (fun d => d.name = a) with _ | c
      · -- the child is created fresh, appended, and the list re-sorted
        have hnotin : ∀ x ∈ cs, ¬ (x.name = a) := by
          intro x hx
          have := List.find?_eq_none.mp hfound x hx
          simpa using this
        have hdist : cs.Pairwise (fun x y => x.name ≠ y.name) :=
          pairwise_ne_of_sorted hwf.sorted
        have hnew := ih (empty_node_WF a) (leafAt_empty_node a rest)
        have hcname : ((GTrie.mk a ([] : List (GTrie α)) none).insert rest v).2.name = a :=
          insert_name _ _ _
        have hfind1 := find?_sortByName_append a hdist hnotin
        rw [if_pos rfl] at hfind1
        rw [insert_cons_missing hfound]
        refine ⟨by rw [hnew.1]; rfl, ?_, ?_⟩
        · rw [leafAt_cons]
          simp only [GTrie.child]
          rw [find?_replaceFirstByName_self hcname hfind1]
          exact hnew.2.1
        · intro q hq
          cases q with
          | nil => rfl
          | cons b q' =>
            rw [leafAt_cons, leafAt_cons]
            simp only [GTrie.child]
            by_cases hba : b = a
            · subst hba
              rw [find?_replaceFirstByName_self hcname hfind1, hfound]
              have hq' : q' ≠ rest := fun h => hq (by rw [h])
              have hz := hnew.2.2 q' hq'
              rw [leafAt_empty_node] at hz
              exact hz
            · rw [find?_replaceFirstByName_ne hcname hba]
              have hfq := find?_sortByName_append b hdist hnotin
              rw [if_neg hba] at hfq
              rw [hfq]
      · -- the child already exists; recurse into it
        have hca : c.name = a := by
          simpa using List.find?_some hfound
        have hcnone : c.leafAt rest = none := by
          rw [leafAt_cons] at hnone
          simpa only [GTrie.child, hfound] using hnone
        have hcwf : c.WF := hwf.children c (List.mem_of_find?_eq_some hfound)
        have hrec := ih hcwf hcnone
        have hcname : (c.insert rest v).2.name = a := by
          rw [insert_name, hca]
        rw [insert_cons_found hfound]
        refine ⟨by rw [hrec.1]; rfl, ?_, ?_⟩
        · rw [leafAt_cons]
          simp only [GTrie.child]
          rw [find?_replaceFirstByName_self hcname hfound]
          exact hrec.2.1
        · intro q hq
          cases q with
          | nil => rfl
          | cons b q' =>
            rw [leafAt_cons, leafAt_cons]
            simp only [GTrie.child]
            by_cases hba : b = a
            · subst hba
              rw [find?_replaceFirstByName_self hcname hfound, hfound]
              have hq' : q' ≠ rest := fun h => hq (by rw [h])
              exact hrec.2.2 q' hq'
            · rw [find?_replaceFirstByName_ne hcname hba]

/-- `Insert` keeps the trie well-formed. -/
theorem insert_WF {α : Type} {t : GTrie α} (hwf : t.WF) (p : List String) (v : α) :
    ((t.insert p v).2).WF := by
  induction p generalizing t with
  | nil =>
    cases t with
    | mk nm cs lf =>
      cases lf with
      | none =>
        rw [insert_nil_none]
        exact .mk _ _ _ hwf.sorted hwf.children
      | some l =>
        rw [insert_nil_some]
        exact .mk _ _ _ hwf.sorted hwf.children
  | cons a rest ih =>
    cases t with
    | mk nm cs lf =>
      rcases hfound : cs.find? (fun d => d.name = a) with _ | c
      · have hnotin : ∀ x ∈ cs, ¬ (x.name = a) := by
          intro x hx
          have := List.find?_eq_none.mp hfound x hx
          simpa using this
        have hdist : cs.Pairwise (fun x y => x.name ≠ y.name) :=
          pairwise_ne_of_sorted hwf.sorted
        have happdist : (cs ++ [GTrie.mk a ([] : List (GTrie α)) none]).Pairwise
            (fun x y => x.name ≠ y.name) := by
          rw [List.pairwise_append]
          refine ⟨hdist, by simp, ?_⟩
          intro x hx y hy
          rcases List.mem_singleton.mp hy with rfl
          simpa [GTrie.name] using hnotin x hx
        have hs1 := sortByName_pairwise happdist
        have hcname : ((GTrie.mk a ([] : List (GTrie α)) none).insert rest v).2.name = a :=
          insert_name _ _ _
        rw [insert_cons_missing hfound]
        refine .mk _ _ _ (pairwise_replaceFirstByName hcname hs1) ?_
        intro y hy
        rcases mem_replaceFirstByName hy with hy1 | ⟨rfl, _⟩
        · rcases (by simpa using mem_sortByName.mp hy1 : y ∈ cs ∨ y = GTrie.mk a [] none)
            with hy2 | hy2
          · exact hwf.children y hy2
          · subst hy2
            exact empty_node_WF a
        · exact ih (empty_node_WF a)
      · have hca : c.name = a := by
          simpa using List.find?_some hfound
        have hcname : (c.insert rest v).2.name = a := by
          rw [insert_name, hca]
        rw [insert_cons_found hfound]
        refine .mk _ _ _ (pairwise_replaceFirstByName hcname hwf.sorted) ?_
        intro y hy
        rcases mem_replaceFirstByName hy with hy1 | ⟨rfl, _⟩
        · exact hwf.children y hy1
        · exact ih (hwf.children c (List.mem_of_find?_eq_some hfound))

/-! ### `path.Clean` (Go standard library, called by `Domain.ServeHTTP`)

A faithful port of the lexical cleaner: `.` elements dropped, `..` elements
backtrack (or accumulate when un-rooted), duplicate slashes collapsed. The
main loop is fuelled by the length of the remaining input, which bounds its
iteration count. -/

/-- The `..`-backtrack: `out.w--` then walk left until a `/` or the `dotdot`
barrier, truncating the buffer there. -/
def cleanBacktrackPos (out : List Char) (dotdot : Nat) : Nat → Nat
  | 0 => 0
  | w + 1 =>
    if w + 1 > dotdot ∧ out.getD (w + 1) ' ' ≠ '/' then cleanBacktrackPos out dotdot w
    else w + 1

def cleanBacktrack (out : List Char) (dotdot : Nat) : List Char :=
  match out.length with
  | 0 => out
  | w + 1 => out.take (cleanBacktrackPos out dotdot w)

def cleanLoop (rooted : Bool) : Nat → List Char → List Char → Nat → List Char
  | 0, _, out, _ => out
  | _ + 1, [], out, _ => out
  | fuel + 1, c :: rest, out, dotdot =>
    if c = '/' then
      -- empty path element
      cleanLoop rooted fuel rest out dotdot
    else if c = '.' ∧ (rest = [] ∨ rest.headD ' ' = '/') then
      -- "." element
      cleanLoop rooted fuel rest out dotdot
    else if c = '.' ∧ rest.headD ' ' = '.' ∧ (rest.tail = [] ∨ rest.tail.headD ' ' = '/') then
      -- ".." element: backtrack, or accumulate ".." when it cannot back up
      if out.length > dotdot then
        cleanLoop rooted fuel rest.tail (cleanBacktrack out dotdot) dotdot
      else if ¬ rooted then
        let out1 := (if out.length > 0 then out ++ ['/'] else out) ++ ['.', '.']
        cleanLoop rooted fuel rest.tail out1 out1.length
      else
        cleanLoop rooted fuel rest.tail out dotdot
    else
      -- real path element: add slash if needed, then copy to next slash
      let out1 := if (rooted ∧ out.length ≠ 1) ∨ (¬ rooted ∧ out.length ≠ 0)
        then out ++ ['/'] else out
      cleanLoop rooted fuel (rest.dropWhile (· ≠ '/')) (out1 ++ c :: rest.takeWhile (· ≠ '/'))
        dotdot

/-- Go `path.Clean`. -/
def pathClean (p : String) : String :=
  if p = "" then "." else
  let cs := p.toList
  let rooted := cs.headD ' ' = '/'
  let out :=
    if rooted then cleanLoop rooted cs.tail.length cs.tail ['/'] 1
    else cleanLoop rooted cs.length cs [] 0
  if out.length = 0 then "." else String.mk out

example : pathClean "/" = "/" := by decide
example : pathClean "" = "." := by decide
example : pathClean "/dir" = "/dir" := by decide
example : pathClean "/dir/" = "/dir" := by decide
example : pathClean "/foo/baz/../bar" = "/foo/bar" := by decide
example : pathClean "//foo//bar" = "/foo/bar" := by decide
example : pathClean "/../foo" = "/foo" := by decide
example : pathClean "a/./b" = "a/b" := by decide
example : pathClean "../../x" = "../../x" := by decide
example : pathClean "/foo/.." = "/" := by decide
example : pathClean "abc/.." = "." := by decide

/-! ### HTTP layer: URLs, handlers, responses

`net/url.URL.String` is modelled for the fields this program uses (scheme,
host, path, raw query — no user, opaque or fragment, and paths that escape to
themselves). `http.Redirect` is modelled at the repository boundary: it sets
the `Location` header to the URL string passed in and writes the given status
code. Handlers stored in the path trie are a tagged variant (design note §9
of the spec): a numbered user handler, the package's `addSlash` redirector,
or `http.NotFound`. -/

structure GoURL where
  scheme : String
  host : String
  path : String
  rawQuery : String
deriving DecidableEq

/-- `url.URL.String()` for the fields in play. -/
def GoURL.str (u : GoURL) : String :=
  (if u.scheme = "" then "" else u.scheme ++ ":")
  ++ (if u.scheme = "" ∧ u.host = "" then "" else "//" ++ u.host)
  ++ u.path
  ++ (if u.rawQuery = "" then "" else "?" ++ u.rawQuery)

/-- The parts of an incoming `http.Request` this router reads: `URL.Path`,
`URL.RawQuery` (plus the client-supplied scheme/host when present), the `Host`
header and whether the connection carried TLS. -/
structure HxReq where
  url : GoURL
  host : String
  tls : Bool
deriving DecidableEq

inductive PHandler where
  | user (id : Nat)
  | addSlashH
  | notFoundH
deriving DecidableEq

/-- The observable response of the routing layer. -/
inductive HxResp where
  | ok (id : Nat)
  | notFound
  | redirect (code : Nat) (location : String)
  | nilPanic
deriving DecidableEq

/-- `addSlash` (302 to the same URL with `/` appended to the path),
`http.NotFound`, or a user handler. -/
def runPHandler (h : PHandler) (r : HxReq) : HxResp :=
  match h with
  | .user id => .ok id
  | .notFoundH => .notFound
  | .addSlashH =>
    .redirect 302 (GoURL.str ⟨r.url.scheme, r.url.host, r.url.path ++ "/", r.url.rawQuery⟩)

/-- `NewDomain`: a fresh Domain whose root leaf is `http.NotFound`. -/
def newDomain : GTrie PHandler := .mk "" [] (some .notFoundH)

/-- `Domain.ServeHTTP`: clean the path (301 on a lexical difference,
preserving a trailing slash), split into segments keeping slashes attached,
`Find`, 404 on a partial match at a non-directory node, else dispatch. -/
def serveDomain (d : GTrie PHandler) (r : HxReq) : HxResp :=
  let cleaned0 := pathClean r.url.path
  let cleaned := if strEndsWith r.url.path "/" then cleaned0 ++ "/" else cleaned0
  if r.url.path ≠ cleaned then
    .redirect 301 (GoURL.str ⟨r.url.scheme, r.url.host, cleaned, r.url.rawQuery⟩)
  else
    let paths := vaccuum ((splitAfter r.url.path '/').drop 1)
    let nf := d.find paths
    if nf.1 ≠ paths.length ∧ ¬ strEndsWith nf.2.name "/" then .notFound
    else
      match nf.2.leaf with
      | some h => runPHandler h r
      | none => .nilPanic

/-- `NewServeMux`: root leaf is the "any domain" default Domain. -/
def newServeMux : GTrie (GTrie PHandler) := .mk "" [] (some newDomain)

/-- `ServeMux.ServeHTTP`: split the Host on `.`, reverse, `Find` the best
Domain; on a strict partial match emit `changeHost`'s 302 to the matched
suffix (scheme from TLS presence); otherwise serve the found Domain. -/
def serveMux (s : GTrie (GTrie PHandler)) (r : HxReq) : HxResp :=
  let domain := (splitString r.host '.').reverse
  let nf := s.find domain
  if 0 < nf.1 ∧ nf.1 ≠ domain.length then
    .redirect 302 (GoURL.str ⟨if r.tls then "https" else "http",
      joinSep "." (domain.take nf.1).reverse, r.url.path, r.url.rawQuery⟩)
  else
    match nf.2.leaf with
    | some d => serveDomain d r
    | none => .nilPanic

/-- Overwrite the leaf at an existing path — the write-back for Go's
mutation through the node pointer returned by `Find`. -/
def GTrie.setLeafAt {α : Type} : GTrie α → List String → α → GTrie α
  | .mk nm cs _, [], v => .mk nm cs (some v)
  | .mk nm cs lf, p :: rest, v =>
    match cs.find? (fun c => c.name = p) with
    | some c => .mk nm (replaceFirstByName p (c.setLeafAt rest v) cs) lf
    | none => .mk nm cs lf

/-- The `insert` closure inside `ServeMux.Handle`: insert the handler at
`path` (panicking on error), and when the pattern ends in `/` also insert
`addSlash` at `path` with the final segment's trailing slash trimmed,
ignoring the error (an existing leaf is silently left alone). An empty
`path` with a slash-terminated pattern would index `path[-1]` — a runtime
panic — but the first insert always fails first on a Domain trie, whose root
leaf is never nil. -/
def insertWithSlash (t : GTrie PHandler) (pattern : String) (path : List String)
    (h : PHandler) : Except String (GTrie PHandler) :=
  let r1 := t.insert path h
  match r1.1 with
  | some e => .error e
  | none =>
    if strEndsWith pattern "/" then
      match path.getLast? with
      | none => .error "runtime error: index out of range"
      | some lastSeg =>
        .ok (r1.2.insert (path.dropLast ++ [trimSuffix lastSeg "/"]) .addSlashH).2
    else .ok r1.2

/-- `ServeMux.Handle`: split the pattern, derive the reversed domain and the
path (both `vaccuum`ed), locate or create the Domain, and run the insert
closure inside it; panics (modelled as `.error`) propagate out. The result
of `s.Insert(domain, d)` is discarded by the source, as is the error of the
second (addSlash) insert. -/
def handleMux (s : GTrie (GTrie PHandler)) (pattern : String) (h : PHandler) :
    Except String (GTrie (GTrie PHandler)) :=
  let pieces := splitAfter pattern '/'
  if pieces.length < 2 then
    .error ("handle pattern \"" ++ pattern ++ "\" is not in <domain>/<path> form")
  else
    let p0 := trimSuffix (pieces.headD "") "/"
    let domain := (vaccuum (splitString p0 '.')).reverse
    let path := vaccuum (pieces.drop 1)
    let nf := s.find domain
    if nf.1 ≠ domain.length then
      match insertWithSlash newDomain pattern path h with
      | .error e => .error e
      | .ok d => .ok (s.insert domain d).2
    else
      match nf.2.leaf with
      | none => .error "runtime error: invalid memory address or nil pointer dereference"
      | some dom =>
        match insertWithSlash dom pattern path h with
        | .error e => .error e
        | .ok dom' => .ok (s.setLeafAt domain dom')

/-- Whether a `Handle` call returned without panicking. -/
def regOk {β : Type} : Except String β → Bool
  | .ok _ => true
  | .error _ => false

/-- The mux produced by a `Handle` call, or a fallback when it panicked. -/
def regGet {β : Type} (dflt : β) : Except String β → β
  | .ok b => b
  | .error _ => dflt

/-! Sanity checks mirroring `TestHandle` and `TestServeHTTP`. -/

def muxFoo : GTrie (GTrie PHandler) :=
  regGet newServeMux (handleMux newServeMux "/foo" (.user 1))

example : regOk (handleMux newServeMux "/foo" (.user 1)) = true := by decide
example : muxFoo =
    .mk "" [] (some (.mk "" [.mk "foo" [] (some (.user 1))] (some .notFoundH))) := rfl
example : regOk (handleMux muxFoo "/foo" (.user 9)) = false := by decide
example : handleMux muxFoo "/foo" (.user 9) = .error "foo: leaf already exists" := rfl
example : handleMux newServeMux "" (.user 1) =
    .error "handle pattern \"\" is not in <domain>/<path> form" := rfl
example : regOk (handleMux newServeMux "example.com" (.user 1)) = false := by decide

def muxFooDir : GTrie (GTrie PHandler) :=
  regGet newServeMux (handleMux muxFoo "/dir/" (.user 2))

example : muxFooDir =
    .mk "" [] (some (.mk ""
      [.mk "dir" [] (some .addSlashH),
       .mk "dir/" [] (some (.user 2)),
       .mk "foo" [] (some (.user 1))] (some .notFoundH))) := rfl

example : serveMux muxFooDir ⟨⟨"", "", "/foo", ""⟩, "", false⟩ = .ok 1 := by decide
example : serveMux muxFooDir ⟨⟨"", "", "/dir", ""⟩, "", false⟩ = .redirect 302 "/dir/" := by
  decide
example : serveMux muxFooDir ⟨⟨"", "", "/dir", "foo"⟩, "", false⟩ =
    .redirect 302 "/dir/?foo" := by decide
example : serveMux muxFooDir ⟨⟨"", "", "/dir/", ""⟩, "", false⟩ = .ok 2 := by decide
example : serveMux muxFooDir ⟨⟨"", "", "/dir/foo/bar", ""⟩, "", false⟩ = .ok 2 := by decide
example : serveMux muxFooDir ⟨⟨"", "", "/foo/sub", ""⟩, "", false⟩ = .notFound := by decide
example : serveMux muxFooDir ⟨⟨"", "", "/bar", ""⟩, "", false⟩ = .notFound := by decide

def muxFooBar : GTrie (GTrie PHandler) :=
  regGet newServeMux (handleMux newServeMux "/foo/bar" (.user 3))

example : serveMux muxFooBar ⟨⟨"", "", "/foo/baz/../bar", ""⟩, "", false⟩ =
    .redirect 301 "/foo/bar" := by decide
example : serveMux muxFooBar ⟨⟨"", "", "/foo/baz/../bar", "q"⟩, "", false⟩ =
    .redirect 301 "/foo/bar?q" := by decide

def muxExample : GTrie (GTrie PHandler) :=
  regGet newServeMux (handleMux newServeMux "example.com/foo" (.user 4))

example : serveMux muxExample ⟨⟨"http", "example.com", "/foo", ""⟩, "example.com", false⟩ =
    .ok 4 := by decide
example : serveMux muxExample ⟨⟨"http", "www.example.com", "/foo", ""⟩,
    "www.example.com", false⟩ = .redirect 302 "http://example.com/foo" := by decide
example : serveMux muxExample ⟨⟨"http", "www.example.com", "/foo", "q"⟩,
    "www.example.com", false⟩ = .redirect 302 "http://example.com/foo?q" := by decide
example : serveMux muxExample ⟨⟨"http", "example.net", "/foo", ""⟩, "example.net", false⟩ =
    .notFound := by decide

example : serveMux muxFoo ⟨⟨"", "", "/", ""⟩, "", false⟩ = .redirect 301 "//" := by decide

/-! ### Endpoint forwarder (`Endpoint.ServeHTTP`, frontend package)

The claims under verification concern the replica-availability check and the
response-header relay, so the embedding captures the handler's control flow
and its writes to the client response; construction of the backend request
(URL copy, header whitelist, body limit) does not influence them and is
summed up in the round-trip outcome fed in as `RoundTripResult`.

Headers are an association list with Go-map assignment semantics
(`setHeader`); `w.Header().Set` and the raw `w.Header()[k] = v` both write
the canonical-cased keys that appear here. -/

def setHeader (hs : List (String × String)) (k v : String) : List (String × String) :=
  if hs.any (fun p => p.1 = k) then hs.map (fun p => if p.1 = k then (k, v) else p)
  else hs ++ [(k, v)]

def getHeader (hs : List (String × String)) (k : String) : Option String :=
  (hs.find? (fun p => p.1 = k)).map (fun p => p.2)

structure UpstreamResp where
  status : Nat
  headers : List (String × String)

inductive RoundTripResult where
  | ok (resp : UpstreamResp)
  | err

/-- What `Endpoint.ServeHTTP` leaves behind: the status and body written to
the client (by `http.Error`, or by relaying the upstream status), the client
response headers, and the message of the panic that escaped the handler, if
any. -/
structure EndpointOutcome where
  status : Option Nat
  body : Option String
  headers : List (String × String)
  panicMsg : Option String

/-- `Endpoint.ServeHTTP` for an endpoint whose replica list is `hosts`:

```go
avail := len(b.hosts)
if avail == 0 {
    http.Error(w, "Backend Unavailable", http.StatusServiceUnavailable)
}                                     // NOTE: no return here
url := *b.hosts[rand.Intn(avail)]     // rand.Intn(0) panics
```

`sel` stands for the random index drawn by `rand.Intn(avail)` (supplied as
an oracle, `sel < hosts.length` whenever the list is non-empty), and `rt`
for the outcome of `b.RoundTrip(req)`. On success the code sets
`X-Frame-Options` and `X-XSS-Protection` first and then copies every
upstream header over the client header map before `WriteHeader`. -/
def endpointServeHTTP (hosts : List GoURL) (sel : Nat) (rt : RoundTripResult) :
    EndpointOutcome :=
  let avail := hosts.length
  if avail = 0 then
    -- http.Error has already written the 503; the handler then falls
    -- through to rand.Intn(0), which panics.
    ⟨some 503, some "Backend Unavailable", [], some "invalid argument to Intn"⟩
  else
    match hosts.get? (sel % avail) with
    | none => ⟨none, none, [], some "index out of range"⟩
    | some _ =>
      match rt with
      | .err => ⟨some 500, some "Backend Error", [], none⟩
      | .ok up =>
        let h0 := setHeader (setHeader [] "X-Frame-Options" "sameorigin")
          "X-XSS-Protection" "1; mode=block"
        let h1 := up.headers.foldl (fun acc kv => setHeader acc kv.1 kv.2) h0
        ⟨some up.status, none, h1, none⟩

example :
    endpointServeHTTP [] 0 .err =
      ⟨some 503, some "Backend Unavailable", [], some "invalid argument to Intn"⟩ := rfl

example :
    (endpointServeHTTP [⟨"http", "10.0.0.5:1337", "", ""⟩] 0 (.ok ⟨200, []⟩)).headers =
      [("X-Frame-Options", "sameorigin"), ("X-XSS-Protection", "1; mode=block")] := by decide

example :
    getHeader (endpointServeHTTP [⟨"http", "10.0.0.5:1337", "", ""⟩] 0
      (.ok ⟨200, [("X-Frame-Options", "deny")]⟩)).headers "X-Frame-Options" =
      some "deny" := by decide

/-! ### Replica registry (`Frontend.addBackend` / `Frontend.delBackend`)

Replica URLs are compared by pointer identity (`u == url // deliberate
pointer compare`), so each stored replica is a pair of the allocation
identity of the `url` variable created by its `ServeBackend` call and the
URL value. -/

/-- The append performed by `addBackend` once the endpoint is found. -/
def addBackendHosts (hosts : List (Nat × GoURL)) (entry : Nat × GoURL) :
    List (Nat × GoURL) :=
  hosts ++ [entry]

/-- The removal loop of `delBackend`: delete the first entry whose identity
matches; a missing entry is logged and the list left alone. -/
def delBackendHosts (hosts : List (Nat × GoURL)) (id : Nat) : List (Nat × GoURL) :=
  match hosts with
  | [] => []
  | h :: t => if h.1 = id then t else h :: delBackendHosts t id

/-! ### Ping loop (`Frontend.ServeBackend`, steady state)

Each iteration sleeps, encodes `Status{Nonce: rand.Int63()}`, decodes the
reply, and compares nonces. The random nonces are supplied as an oracle
stream, and the connection's behaviour as a list of per-iteration events. -/

inductive PingEvent where
  | sendEOF                     -- io.EOF / io.ErrClosedPipe from enc.Encode
  | sendErr                     -- any other encode error
  | recvEOF                     -- io.EOF / io.ErrClosedPipe from dec.Decode
  | recvErr                     -- any other decode error
  | pong (nonce : Int)          -- a decoded Status reply
deriving DecidableEq

inductive PingResult where
  | clean                       -- the loop broke; ServeBackend returns nil
  | pingFailed                  -- "ping failed: ..."
  | pongDecodeFailed            -- "pong decode: ..."
  | mismatch (got want : Int)   -- "ping/pong mismatch: nonce = got, want want"
  | running                     -- events exhausted with the loop still alive
deriving DecidableEq

def pingLoop : List Int → List PingEvent → PingResult
  | _, [] => .running
  | [], _ :: _ => .running
  | n :: ns, ev :: evs =>
    match ev with
    | .sendEOF => .clean
    | .sendErr => .pingFailed
    | .recvEOF => .clean
    | .recvErr => .pongDecodeFailed
    | .pong g => if g = n then pingLoop ns evs else .mismatch g n

/-! ### Support lemmas for the claim theorems -/

theorem strEndsWith_append_left (a b suf : String) (h : strEndsWith b suf = true) :
    strEndsWith (a ++ b) suf = true := by
  unfold strEndsWith at *
  rw [List.isSuffixOf_iff_suffix] at *
  have happ : (a ++ b).toList = a.toList ++ b.toList := rfl
  rw [happ]
  exact h.trans (List.suffix_append a.toList b.toList)

theorem insertErrMsg_endsWith (nm : String) (p : List String) :
    strEndsWith (insertErrMsg nm p) ": leaf already exists" = true := by
  induction p generalizing nm with
  | nil =>
    rw [insertErrMsg]
    exact strEndsWith_append_left nm ": leaf already exists" _ (by decide)
  | cons a rest ih =>
    rw [insertErrMsg]
    by_cases hnm : nm = ""
    · rw [if_pos hnm]
      exact ih a
    · rw [if_neg hnm]
      have : nm ++ ": " ++ insertErrMsg a rest = nm ++ (": " ++ insertErrMsg a rest) := by
        rw [String.append_assoc]
      rw [this]
      exact strEndsWith_append_left nm _ _ (strEndsWith_append_left ": " _ _ (ih a))

theorem find?_map_setHeader {hs : List (String × String)} {k k' v : String}
    (hne : k' ≠ k) :
    (hs.map (fun p => if p.1 = k' then (k', v) else p)).find? (fun p => p.1 = k) =
      hs.find? (fun p => p.1 = k) := by
  induction hs with
  | nil => rfl
  | cons p ps ih =>
    by_cases hpk' : p.1 = k'
    · rw [List.map_cons, if_pos hpk']
      rw [List.find?_cons_of_neg _ (by simpa using hne),
        List.find?_cons_of_neg _ (by simp [hpk']; exact fun hk => hne (hpk' ▸ hk))]
      exact ih
    · rw [List.map_cons, if_neg hpk']
      by_cases hpk : p.1 = k
      · rw [List.find?_cons_of_pos _ (by simpa using hpk),
          List.find?_cons_of_pos _ (by simpa using hpk)]
      · rw [List.find?_cons_of_neg _ (by simpa using hpk),
          List.find?_cons_of_neg _ (by simpa using hpk)]
        exact ih

theorem getHeader_setHeader_ne {hs : List (String × String)} {k k' v : String}
    (hne : k' ≠ k) : getHeader (setHeader hs k' v) k = getHeader hs k := by
  unfold setHeader
  by_cases hany : hs.any (fun p => p.1 = k')
  · rw [if_pos hany]
    unfold getHeader
    rw [find?_map_setHeader hne]
  · rw [if_neg hany]
    unfold getHeader
    rw [List.find?_append]
    rcases hfind : hs.find? (fun p => p.1 = k) with _ | p
    · rw [hfind]
      simp only [Option.none_or]
      rw [List.find?_cons_of_neg _ (by simpa using hne)]
      rfl
    · rw [hfind]
      rfl

theorem getHeader_foldl_of_absent {ups : List (String × String)} {k : String}
    (h : ∀ p ∈ ups, p.1 ≠ k) (hs : List (String × String)) :
    getHeader (ups.foldl (fun acc kv => setHeader acc kv.1 kv.2) hs) k = getHeader hs k := by
  induction ups generalizing hs with
  | nil => rfl
  | cons p ps ih =>
    rw [List.foldl_cons]
    rw [ih (fun q hq => h q (List.mem_cons_of_mem p hq))]
    exact getHeader_setHeader_ne (h p (List.mem_cons_self p ps))

theorem foldl_addBackendHosts (acc : List (Nat × GoURL)) (regs : List (Nat × GoURL)) :
    regs.foldl addBackendHosts acc = acc ++ regs := by
  induction regs generalizing acc with
  | nil => simp
  | cons r rs ih =>
    rw [List.foldl_cons, ih]
    simp [addBackendHosts]

theorem map_fst_delBackendHosts (hosts : List (Nat × GoURL)) (id : Nat) :
    (delBackendHosts hosts id).map Prod.fst = (hosts.map Prod.fst).erase id := by
  induction hosts with
  | nil => rfl
  | cons h t ih =>
    rw [delBackendHosts]
    by_cases hh : h.1 = id
    · rw [if_pos hh, List.map_cons, List.erase_cons]
      simp [hh]
    · rw [if_neg hh, List.map_cons, List.map_cons, List.erase_cons]
      simp [hh, ih]

theorem length_delBackendHosts_of_mem {hosts : List (Nat × GoURL)} {id : Nat}
    (h : id ∈ hosts.map Prod.fst) :
    (delBackendHosts hosts id).length = hosts.length - 1 := by
  have h1 : (delBackendHosts hosts id).length = ((delBackendHosts hosts id).map Prod.fst).length :=
    (List.length_map _ _).symm
  rw [h1, map_fst_delBackendHosts, List.length_erase_of_mem h, List.length_map]

/-- The empty `ServeMux` (and every `Domain` node in it) is well-formed. -/
theorem newServeMux_WF : newServeMux.WF :=
  .mk _ _ _ (by simp) (by simp)

theorem newDomain_WF : newDomain.WF :=
  .mk _ _ _ (by simp) (by simp)

/-- Every Domain stored in the fresh mux has its root leaf set (to
`http.NotFound`), the invariant `NewDomain` establishes. -/
theorem newServeMux_domains_initialized :
    ∀ (q : List String) (node : GTrie (GTrie PHandler)), newServeMux.nodeAt q = some node →
      ∀ d, node.leaf = some d → d.leaf.isSome := by
  intro q node hq d hd
  cases q with
  | nil =>
    have hnode : node = newServeMux := by
      simpa [GTrie.nodeAt] using hq.symm
    subst hnode
    have : d = newDomain := by
      simpa [newServeMux, GTrie.leaf] using hd.symm
    subst this
    rfl
  | cons a rest =>
    rw [nodeAt_cons] at hq
    simp [newServeMux, GTrie.child] at hq

/-! ### Claim theorems -/

/-- C1: the claim says that with an empty replica list `Endpoint.ServeHTTP`
writes `503 Backend Unavailable` and returns immediately, never panicking.
The code does write the 503, but the `return` is missing: control falls
through to `b.hosts[rand.Intn(avail)]` with `avail == 0`, and `rand.Intn(0)`
panics with "invalid argument to Intn". This theorem evaluates the embedded
handler at the failing input, exhibiting both the 503 write and the panic. -/
theorem c1_empty_hosts_503_then_panic (sel : Nat) (rt : RoundTripResult) :
    (endpointServeHTTP [] sel rt).status = some 503 ∧
    (endpointServeHTTP [] sel rt).body = some "Backend Unavailable" ∧
    (endpointServeHTTP [] sel rt).panicMsg = some "invalid argument to Intn" :=
  ⟨rfl, rfl, rfl⟩

/-- C2 counterexample: the claim says the forced `X-Frame-Options` /
`X-XSS-Protection` values override upstream-supplied ones. They do not: the
code sets them *before* copying the upstream headers (`w.Header()[k] = v`),
so an upstream response carrying those names wins. -/
theorem c2_upstream_wins_counterexample :
    getHeader (endpointServeHTTP [⟨"http", "10.0.0.5:1337", "", ""⟩] 0
      (.ok ⟨200, [("X-Frame-Options", "deny"), ("X-XSS-Protection", "0")]⟩)).headers
      "X-Frame-Options" = some "deny" ∧
    getHeader (endpointServeHTTP [⟨"http", "10.0.0.5:1337", "", ""⟩] 0
      (.ok ⟨200, [("X-Frame-Options", "deny"), ("X-XSS-Protection", "0")]⟩)).headers
      "X-XSS-Protection" = some "0" ∧
    ¬ getHeader (endpointServeHTTP [⟨"http", "10.0.0.5:1337", "", ""⟩] 0
      (.ok ⟨200, [("X-Frame-Options", "deny"), ("X-XSS-Protection", "0")]⟩)).headers
      "X-Frame-Options" = some "sameorigin" := by
  refine ⟨by decide, by decide, by decide⟩

/-- C2 (amended): for every successful round trip the handler sets
`X-Frame-Options: sameorigin` and `X-XSS-Protection: 1; mode=block` before
copying the upstream headers and writing the upstream status, so the client
response carries the forced values whenever the upstream response does not
itself contain those header names (an upstream value for the same name
overrides the forced one, per the counterexample). -/
theorem c2_forced_headers_when_upstream_omits (hosts : List GoURL) (sel : Nat)
    (up : UpstreamResp) (hne : hosts ≠ []) :
    (endpointServeHTTP hosts sel (.ok up)).status = some up.status ∧
    ((∀ p ∈ up.headers, p.1 ≠ "X-Frame-Options") →
      getHeader (endpointServeHTTP hosts sel (.ok up)).headers "X-Frame-Options" =
        some "sameorigin") ∧
    ((∀ p ∈ up.headers, p.1 ≠ "X-XSS-Protection") →
      getHeader (endpointServeHTTP hosts sel (.ok up)).headers "X-XSS-Protection" =
        some "1; mode=block") := by
  have hlen : hosts.length ≠ 0 := fun h => hne (List.length_eq_zero.mp h)
  have hlt : sel % hosts.length < hosts.length := Nat.mod_lt _ (Nat.pos_of_ne_zero hlen)
  unfold endpointServeHTTP
  rw [if_neg hlen, List.get?_eq_get hlt]
  refine ⟨rfl, ?_, ?_⟩
  · intro habs
    exact (getHeader_foldl_of_absent habs _).trans (by decide)
  · intro habs
    exact (getHeader_foldl_of_absent habs _).trans (by decide)

theorem c2_forced_headers_when_upstream_omits_witness :
    ([⟨"http", "10.0.0.5:1337", "", ""⟩] : List GoURL) ≠ [] ∧
    (endpointServeHTTP [⟨"http", "10.0.0.5:1337", "", ""⟩] 0
      (.ok ⟨204, [("Content-Type", "text/plain")]⟩)).status = some 204 ∧
    getHeader (endpointServeHTTP [⟨"http", "10.0.0.5:1337", "", ""⟩] 0
      (.ok ⟨204, [("Content-Type", "text/plain")]⟩)).headers "X-Frame-Options" =
      some "sameorigin" ∧
    getHeader (endpointServeHTTP [⟨"http", "10.0.0.5:1337", "", ""⟩] 0
      (.ok ⟨204, [("Content-Type", "text/plain")]⟩)).headers "X-XSS-Protection" =
      some "1; mode=block" := by
  have h := c2_forced_headers_when_upstream_omits [⟨"http", "10.0.0.5:1337", "", ""⟩] 0
    ⟨204, [("Content-Type", "text/plain")]⟩ (by decide)
  exact ⟨by decide, h.1, h.2.1 (by decide), h.2.2 (by decide)⟩

/-- C3: on a well-formed trie (children sorted by name at every level, as
`Insert` maintains and `Find`'s binary child search requires), `Find(q)`
returns `(n, node)` where `node` is the deepest descendant carrying a
non-nil leaf whose segment path is a prefix of `q` and `n` is the number of
consumed segments; when no leaf-bearing descendant lies on the path, the
receiver itself is returned with `n = 0`. -/
theorem c3_find_deepest_leaf {α : Type} (t : GTrie α) (q : List String) (hwf : t.WF) :
    (t.find q).1 ≤ q.length ∧
    ((t.find q).1 = 0 → (t.find q).2 = t) ∧
    (0 < (t.find q).1 →
      t.nodeAt (q.take (t.find q).1) = some (t.find q).2 ∧ (t.find q).2.leaf.isSome) ∧
    (∀ k, (t.find q).1 < k → k ≤ q.length →
      ∀ node, t.nodeAt (q.take k) = some node → node.leaf = none) :=
  find_spec q t hwf

theorem testFindTrie_WF : testFindTrie.WF := by
  refine .mk _ _ _ (by decide) ?_
  intro c hc
  rcases List.mem_singleton.mp hc with rfl
  refine .mk _ _ _ (by decide) ?_
  intro c hc
  rcases List.mem_cons.mp hc with rfl | hc2
  · exact .mk _ _ _ (by decide) (by simp)
  · rcases List.mem_singleton.mp hc2 with rfl
    exact .mk _ _ _ (by decide) (by simp)

theorem c3_find_deepest_leaf_witness :
    (testFindTrie.find ["foo", "bar"]).1 ≤ 2 ∧
    ((testFindTrie.find ["foo", "bar"]).1 = 0 → (testFindTrie.find ["foo", "bar"]).2 =
      testFindTrie) ∧
    (0 < (testFindTrie.find ["foo", "bar"]).1 →
      testFindTrie.nodeAt (["foo", "bar"].take (testFindTrie.find ["foo", "bar"]).1) =
        some (testFindTrie.find ["foo", "bar"]).2 ∧
      (testFindTrie.find ["foo", "bar"]).2.leaf.isSome) ∧
    (∀ k, (testFindTrie.find ["foo", "bar"]).1 < k → k ≤ 2 →
      ∀ node, testFindTrie.nodeAt (["foo", "bar"].take k) = some node → node.leaf = none) :=
  c3_find_deepest_leaf testFindTrie ["foo", "bar"] testFindTrie_WF

/-- C4: inserting at a path whose node already carries a leaf fails with the
error built from the names along the traversal (ending in
"leaf already exists"), and the trie returned by the failing call is the
receiver unchanged — the whole path pre-exists, so nothing is created or
overwritten. -/
theorem c4_insert_existing_leaf_rejected {α : Type} (t : GTrie α) (p : List String)
    (w v : α) (h : t.leafAt p = some w) :
    t.insert p v = (some (insertErrMsg t.name p), t) ∧
    strEndsWith (insertErrMsg t.name p) ": leaf already exists" = true :=
  ⟨insert_err h v, insertErrMsg_endsWith t.name p⟩

theorem c4_insert_existing_leaf_rejected_witness :
    testInsertTrie2.insert ["foo", "baz"] 9 =
      (some (insertErrMsg testInsertTrie2.name ["foo", "baz"]), testInsertTrie2) ∧
    strEndsWith (insertErrMsg testInsertTrie2.name ["foo", "baz"])
      ": leaf already exists" = true :=
  c4_insert_existing_leaf_rejected testInsertTrie2 ["foo", "baz"] 1 9 rfl

theorem delFold_length (closes : List Nat) :
    ∀ (hosts : List (Nat × GoURL)), (hosts.map Prod.fst).Nodup → closes.Nodup →
      (∀ i ∈ closes, i ∈ hosts.map Prod.fst) →
      (closes.foldl delBackendHosts hosts).length = hosts.length - closes.length := by
  induction closes with
  | nil =>
    intro hosts _ _ _
    simp
  | cons c cs ih =>
    intro hosts hids hcl hsub
    rw [List.foldl_cons]
    have hmem : c ∈ hosts.map Prod.fst := hsub c (List.mem_cons_self c cs)
    have hlen1 : (delBackendHosts hosts c).length = hosts.length - 1 :=
      length_delBackendHosts_of_mem hmem
    have hids' : ((delBackendHosts hosts c).map Prod.fst).Nodup := by
      rw [map_fst_delBackendHosts]
      exact hids.erase c
    have hcl' : cs.Nodup := (List.nodup_cons.mp hcl).2
    have hcne : c ∉ cs := (List.nodup_cons.mp hcl).1
    have hsub' : ∀ i ∈ cs, i ∈ (delBackendHosts hosts c).map Prod.fst := by
      intro i hi
      rw [map_fst_delBackendHosts]
      refine (List.mem_erase_of_ne ?_).mpr (hsub i (List.mem_cons_of_mem c hi))
      intro hic
      exact hcne (hic ▸ hi)
    rw [ih (delBackendHosts hosts c) hids' hcl' hsub', hlen1]
    have hpos : 1 ≤ hosts.length := by
      have := List.length_pos.mpr (List.ne_nil_of_mem hmem)
      simpa using this
    simp only [List.length_cons]
    omega

/-- C7: starting from an empty replica list, after N registrations (each
`addBackend` appending one entry) followed by M terminations (each running
`delBackend` once with the identity its own registration created), the hosts
list has length N − M. Entries are identified by the allocation identity of
the URL created at registration — Go's deliberate pointer compare — so the
registration identities are pairwise distinct even when the URL values
coincide, and each close removes exactly its own entry. -/
theorem c7_replica_lifecycle (regs : List (Nat × GoURL)) (closes : List Nat)
    (hids : (regs.map Prod.fst).Nodup) (hcl : closes.Nodup)
    (hsub : ∀ i ∈ closes, i ∈ regs.map Prod.fst) :
    (closes.foldl delBackendHosts (regs.foldl addBackendHosts [])).length =
      regs.length - closes.length := by
  rw [foldl_addBackendHosts, List.nil_append]
  exact delFold_length closes regs hids hcl hsub

theorem c7_replica_lifecycle_witness :
    (([2, 1] : List Nat).foldl delBackendHosts
      (([(1, ⟨"http", "10.0.0.5:1337", "", ""⟩),
         (2, ⟨"http", "10.0.0.5:1337", "", ""⟩),
         (3, ⟨"http", "10.0.0.6:1337", "", ""⟩)] : List (Nat × GoURL)).foldl
        addBackendHosts [])).length = 3 - 2 :=
  c7_replica_lifecycle
    [(1, ⟨"http", "10.0.0.5:1337", "", ""⟩),
     (2, ⟨"http", "10.0.0.5:1337", "", ""⟩),
     (3, ⟨"http", "10.0.0.6:1337", "", ""⟩)] [2, 1]
    (by decide) (by decide) (by decide)

/-- C8: one iteration of the frontend ping loop sends the next oracle nonce
and decodes one reply: an echo of the same nonce continues the loop, a reply
with a different nonce terminates with the "ping/pong mismatch" protocol
error, and EOF or a closed pipe on either the send or the receive ends the
loop cleanly (`ServeBackend` returns nil). -/
theorem c8_ping_nonce_roundtrip :
    (∀ (n : Int) (ns : List Int) (evs : List PingEvent),
      pingLoop (n :: ns) (.pong n :: evs) = pingLoop ns evs) ∧
    (∀ (n g : Int) (ns : List Int) (evs : List PingEvent), g ≠ n →
      pingLoop (n :: ns) (.pong g :: evs) = .mismatch g n) ∧
    (∀ (n : Int) (ns : List Int) (evs : List PingEvent),
      pingLoop (n :: ns) (.sendEOF :: evs) = .clean ∧
      pingLoop (n :: ns) (.recvEOF :: evs) = .clean) := by
  refine ⟨?_, ?_, ?_⟩
  · intro n ns evs
    simp [pingLoop]
  · intro n g ns evs hne
    simp [pingLoop, hne]
  · intro n ns evs
    exact ⟨rfl, rfl⟩

theorem c8_ping_nonce_roundtrip_witness :
    pingLoop [5, 7] [.pong 5, .pong 7, .pong 9] = pingLoop [7] [.pong 7, .pong 9] ∧
    pingLoop [5] [.pong 6] = .mismatch 6 5 ∧
    pingLoop [5] [.sendEOF] = .clean :=
  ⟨c8_ping_nonce_roundtrip.1 5 [7] [.pong 7, .pong 9],
   c8_ping_nonce_roundtrip.2.1 5 6 [] [] (by decide),
   (c8_ping_nonce_roundtrip.2.2 5 [] []).1⟩

/-- C10: for a request whose URL path is exactly "/", `Domain.ServeHTTP`
never dispatches a handler: `path.Clean("/")` is "/", the trailing-slash
rule appends another "/", and the cleaned path "//" differs from the
original, so the handler emits `rewrite`'s 301 redirect to "//" (for a bare
server-side URL the redirected URL string is exactly "//"). -/
theorem c10_root_path_always_redirects (d : GTrie PHandler) (r : HxReq)
    (hpath : r.url.path = "/") :
    serveDomain d r =
      .redirect 301 (GoURL.str ⟨r.url.scheme, r.url.host, "//", r.url.rawQuery⟩) ∧
    GoURL.str ⟨"", "", "//", ""⟩ = "//" := by
  refine ⟨?_, by decide⟩
  unfold serveDomain
  rw [hpath]
  rw [show pathClean "/" = "/" from rfl]
  rw [show strEndsWith "/" "/" = true from rfl]
  simp only [if_true]
  rw [if_pos (by decide : ("/" : String) ≠ "/" ++ "/")]
  rw [show ("/" ++ "/" : String) = "//" from rfl]

theorem c10_root_path_always_redirects_witness :
    serveDomain newDomain ⟨⟨"", "", "/", ""⟩, "", false⟩ =
      .redirect 301 (GoURL.str ⟨"", "", "//", ""⟩) ∧
    GoURL.str ⟨"", "", "//", ""⟩ = "//" :=
  c10_root_path_always_redirects newDomain ⟨⟨"", "", "/", ""⟩, "", false⟩ rfl

theorem trimSuffix_slash_ne {s : String} (h : strEndsWith s "/" = true) :
    trimSuffix s "/" ≠ s := by
  unfold trimSuffix
  rw [if_pos h]
  intro heq
  have hlen : 1 ≤ s.toList.length := by
    unfold strEndsWith at h
    rw [List.isSuffixOf_iff_suffix] at h
    simpa using h.length_le
  have hcong := congrArg (fun x : String => x.toList.length) heq
  simp only [String.toList] at hcong
  rw [List.length_take] at hcong
  simp only [List.length_cons, List.length_nil] at hcong
  have hdl : s.data.length = s.toList.length := rfl
  omega

def muxDirOnly : GTrie (GTrie PHandler) :=
  regGet newServeMux (handleMux newServeMux "/dir/" (.user 7))

def muxDirBoth : GTrie (GTrie PHandler) :=
  regGet newServeMux
    (handleMux (regGet newServeMux (handleMux newServeMux "/dir" (.user 8))) "/dir/" (.user 9))

/-- C5: when a slash-terminated pattern is registered, the handler is
inserted at the full segment path and a 302 `addSlash` redirector is also
inserted at the path with the final segment's trailing slash trimmed — unless
a leaf already exists there, in which case that leaf is silently left alone
(the second insert's error is discarded and, failing on an existing leaf, it
mutates nothing). Consequently with only `/dir/` registered, `GET /dir`
draws 302 to `/dir/` and `GET /dir?q` to `/dir/?q`, while an explicitly
registered `/dir` handler keeps serving `/dir`. -/
theorem c5_slash_insert_and_redirect :
    (∀ (t : GTrie PHandler) (pattern : String) (path : List String) (h : PHandler),
      t.WF → strEndsWith pattern "/" = true → path ≠ [] →
      strEndsWith (path.getLastD "") "/" = true → t.leafAt path = none →
      ∃ t2, insertWithSlash t pattern path h = .ok t2 ∧
        t2.leafAt path = some h ∧
        (t.leafAt (path.dropLast ++ [trimSuffix (path.getLastD "") "/"]) = none →
          t2.leafAt (path.dropLast ++ [trimSuffix (path.getLastD "") "/"]) =
            some .addSlashH) ∧
        (∀ h0, t.leafAt (path.dropLast ++ [trimSuffix (path.getLastD "") "/"]) = some h0 →
          t2.leafAt (path.dropLast ++ [trimSuffix (path.getLastD "") "/"]) = some h0)) ∧
    serveMux muxDirOnly ⟨⟨"", "", "/dir", ""⟩, "", false⟩ = .redirect 302 "/dir/" ∧
    serveMux muxDirOnly ⟨⟨"", "", "/dir", "q"⟩, "", false⟩ = .redirect 302 "/dir/?q" ∧
    serveMux muxDirBoth ⟨⟨"", "", "/dir", ""⟩, "", false⟩ = .ok 8 ∧
    serveMux muxDirBoth ⟨⟨"", "", "/dir/sub", ""⟩, "", false⟩ = .ok 9 := by
  refine ⟨?_, by decide, by decide, by decide, by decide⟩
  intro t pattern path h hwf hpat hnil hlast hnone
  obtain ⟨last, hlastq⟩ := Option.isSome_iff_exists.mp (List.getLast?_isSome.mpr hnil)
  have hgd : path.getLastD "" = last := by
    rw [List.getLastD_eq_getLast?, hlastq]
    rfl
  have hdecomp : path.dropLast ++ [last] = path := List.dropLast_append_getLast? last hlastq
  have htne : trimSuffix last "/" ≠ last := trimSuffix_slash_ne (hgd ▸ hlast)
  have hpne : path.dropLast ++ [trimSuffix last "/"] ≠ path := by
    intro he
    rw [← hdecomp] at he
    exact htne (by simpa using he)
  rcases hr : t.insert path h with ⟨e?, t1⟩
  have hins := insert_success hwf h hnone
  rw [hr] at hins
  obtain ⟨he, hset, hpres⟩ := hins
  simp only at he hset hpres
  subst he
  have ht1wf : t1.WF := by
    have := insert_WF hwf path h
    rw [hr] at this
    exact this
  have hpres_tr : t1.leafAt (path.dropLast ++ [trimSuffix last "/"]) =
      t.leafAt (path.dropLast ++ [trimSuffix last "/"]) := hpres _ hpne
  refine ⟨(t1.insert (path.dropLast ++ [trimSuffix last "/"]) .addSlashH).2, ?_, ?_, ?_, ?_⟩
  · simp only [insertWithSlash, hr, hpat, hlastq, if_true, hgd]
  · rcases htr : t1.leafAt (path.dropLast ++ [trimSuffix last "/"]) with _ | h0
    · have h2 := insert_success ht1wf PHandler.addSlashH htr
      rw [h2.2.2 path (Ne.symm hpne)]
      exact hset
    · rw [insert_err htr PHandler.addSlashH]
      exact hset
  · intro hnone2
    rw [hgd] at hnone2 ⊢
    have htr : t1.leafAt (path.dropLast ++ [trimSuffix last "/"]) = none := by
      rw [hpres_tr]
      exact hnone2
    exact (insert_success ht1wf PHandler.addSlashH htr).2.1
  · intro h0 hsome2
    rw [hgd] at hsome2 ⊢
    have htr : t1.leafAt (path.dropLast ++ [trimSuffix last "/"]) = some h0 := by
      rw [hpres_tr]
      exact hsome2
    rw [insert_err htr PHandler.addSlashH]
    exact htr

theorem c5_slash_insert_and_redirect_witness :
    ∃ t2, insertWithSlash newDomain "/dir/" ["dir/"] (.user 7) = .ok t2 ∧
      t2.leafAt ["dir/"] = some (.user 7) ∧
      (newDomain.leafAt ((["dir/"] : List String).dropLast ++
          [trimSuffix ((["dir/"] : List String).getLastD "") "/"]) = none →
        t2.leafAt ((["dir/"] : List String).dropLast ++
          [trimSuffix ((["dir/"] : List String).getLastD "") "/"]) = some .addSlashH) ∧
      (∀ h0, newDomain.leafAt ((["dir/"] : List String).dropLast ++
          [trimSuffix ((["dir/"] : List String).getLastD "") "/"]) = some h0 →
        t2.leafAt ((["dir/"] : List String).dropLast ++
          [trimSuffix ((["dir/"] : List String).getLastD "") "/"]) = some h0) :=
  c5_slash_insert_and_redirect.1 newDomain "/dir/" ["dir/"] (.user 7) newDomain_WF
    (by decide) (by decide) (by decide) rfl

/-- C6: `ServeMux.ServeHTTP` splits the Host on `.`, reverses it, and `Find`s
the Domain; on a strict partial match (0 < n < len) it responds 302 Found to
the same path and query under the matched-suffix canonical host, with scheme
`https` exactly when the request carried TLS and `http` otherwise. With
`example.com/foo` registered, `GET http://www.example.com/foo` draws 302 to
`http://example.com/foo` (and `https://…` under TLS), while
`GET http://example.net/foo` matches no segment (n = 0) and is served by the
default any-domain Domain, yielding 404. -/
theorem c6_subdomain_canonicalization (s : GTrie (GTrie PHandler)) (r : HxReq)
    (hpos : 0 < (s.find ((splitString r.host '.').reverse)).1)
    (hlen : (s.find ((splitString r.host '.').reverse)).1 ≠
      ((splitString r.host '.').reverse).length) :
    serveMux s r = .redirect 302 (GoURL.str ⟨(if r.tls then "https" else "http"),
      joinSep "." ((((splitString r.host '.').reverse).take
        (s.find ((splitString r.host '.').reverse)).1).reverse),
      r.url.path, r.url.rawQuery⟩) ∧
    serveMux muxExample ⟨⟨"http", "www.example.com", "/foo", ""⟩, "www.example.com", false⟩ =
      .redirect 302 "http://example.com/foo" ∧
    serveMux muxExample ⟨⟨"https", "www.example.com", "/foo", ""⟩, "www.example.com", true⟩ =
      .redirect 302 "https://example.com/foo" ∧
    serveMux muxExample ⟨⟨"http", "example.net", "/foo", ""⟩, "example.net", false⟩ =
      .notFound ∧
    (muxExample.find ((splitString "example.net" '.').reverse)).1 = 0 ∧
    (muxExample.find ((splitString "example.net" '.').reverse)).2.leaf = some newDomain := by
  refine ⟨?_, by decide, by decide, by decide, by decide, rfl⟩
  unfold serveMux
  rw [if_pos ⟨hpos, hlen⟩]

theorem c6_subdomain_canonicalization_witness :
    0 < (muxExample.find ((splitString "www.example.com" '.').reverse)).1 ∧
    (muxExample.find ((splitString "www.example.com" '.').reverse)).1 ≠
      ((splitString "www.example.com" '.').reverse).length ∧
    serveMux muxExample ⟨⟨"http", "www.example.com", "/foo", ""⟩, "www.example.com", false⟩ =
      .redirect 302 (GoURL.str ⟨(if false then "https" else "http"),
        joinSep "." ((((splitString "www.example.com" '.').reverse).take
          (muxExample.find ((splitString "www.example.com" '.').reverse)).1).reverse),
        "/foo", ""⟩) :=
  ⟨by decide, by decide,
   (c6_subdomain_canonicalization muxExample
     ⟨⟨"http", "www.example.com", "/foo", ""⟩, "www.example.com", false⟩
     (by decide) (by decide)).1⟩

theorem insertWithSlash_nil_err (d : GTrie PHandler) (pattern : String) (h : PHandler)
    (hds : d.leaf.isSome) :
    ∃ e, insertWithSlash d pattern [] h = .error e ∧
      strEndsWith e ": leaf already exists" = true := by
  obtain ⟨dl, hdl⟩ := Option.isSome_iff_exists.mp hds
  cases d with
  | mk nm cs lf =>
    have hlf : lf = some dl := by simpa [GTrie.leaf] using hdl
    subst hlf
    refine ⟨nm ++ ": leaf already exists", ?_, ?_⟩
    · unfold insertWithSlash
      rw [insert_nil_some]
    · exact strEndsWith_append_left nm ": leaf already exists" _ (by decide)

/-- C9: a pattern whose path component has no segments left after trimming —
`"/"` itself, or `"<domain>/"` for any domain — always makes
`ServeMux.Handle` panic with a "leaf already exists" error: the insert
targets the Domain's root node, and every Domain root (pre-initialized by
`NewDomain` to the 404 handler, an invariant `newServeMux` establishes and
`Handle` never breaks because this very insert can never succeed) already
carries a leaf. So the bare root path of a domain can never be registered. -/
theorem c9_bare_root_pattern_panics (s : GTrie (GTrie PHandler)) (h : PHandler)
    (pattern : String) (hwf : s.WF)
    (hinit : ∀ q node, s.nodeAt q = some node → ∀ d, node.leaf = some d → d.leaf.isSome)
    (hroot : s.leaf.isSome)
    (hp2 : 2 ≤ (splitAfter pattern '/').length)
    (hempty : vaccuum ((splitAfter pattern '/').drop 1) = []) :
    ∃ e, handleMux s pattern h = .error e ∧ strEndsWith e ": leaf already exists" = true := by
  unfold handleMux
  rw [if_neg (by omega : ¬ (splitAfter pattern '/').length < 2), hempty]
  by_cases hn : (s.find ((vaccuum (splitString
      (trimSuffix ((splitAfter pattern '/').headD "") "/") '.')).reverse)).1 ≠
      ((vaccuum (splitString (trimSuffix ((splitAfter pattern '/').headD "") "/") '.')).reverse).length
  · rw [if_pos hn]
    obtain ⟨e, he, hsuf⟩ := insertWithSlash_nil_err newDomain pattern h rfl
    rw [he]
    exact ⟨e, rfl, hsuf⟩
  · rw [if_neg hn]
    push_neg at hn
    set domain := (vaccuum (splitString
      (trimSuffix ((splitAfter pattern '/').headD "") "/") '.')).reverse with hdomain
    have hspec := find_spec domain s hwf
    by_cases hd0 : domain = []
    · have hfind : s.find domain = (0, s) := by
        rw [hd0]
        exact find_nil s
      obtain ⟨d, hd⟩ := Option.isSome_iff_exists.mp hroot
      have hdinit : d.leaf.isSome := hinit [] s rfl d hd
      rw [hfind]
      simp only
      rw [hd]
      obtain ⟨e, he, hsuf⟩ := insertWithSlash_nil_err d pattern h hdinit
      refine ⟨e, ?_, hsuf⟩
      show (match insertWithSlash d pattern [] h with
            | Except.error e => Except.error e
            | Except.ok dom' => Except.ok (s.setLeafAt domain dom')) = Except.error e
      rw [he]
    · have hpos : 0 < (s.find domain).1 := by
        have hlenpos : 0 < domain.length := List.length_pos.mpr hd0
        omega
      obtain ⟨hnode, hleaf⟩ := hspec.2.2.1 hpos
      obtain ⟨d, hd⟩ := Option.isSome_iff_exists.mp hleaf
      have hdinit : d.leaf.isSome := hinit _ _ hnode d hd
      rw [hd]
      obtain ⟨e, he, hsuf⟩ := insertWithSlash_nil_err d pattern h hdinit
      refine ⟨e, ?_, hsuf⟩
      show (match insertWithSlash d pattern [] h with
            | Except.error e => Except.error e
            | Except.ok dom' => Except.ok (s.setLeafAt domain dom')) = Except.error e
      rw [he]

theorem c9_bare_root_pattern_panics_witness :
    (∃ e, handleMux newServeMux "/" (.user 1) = .error e ∧
      strEndsWith e ": leaf already exists" = true) ∧
    (∃ e, handleMux newServeMux "example.com/" (.user 1) = .error e ∧
      strEndsWith e ": leaf already exists" = true) :=
  ⟨c9_bare_root_pattern_panics newServeMux (.user 1) "/" newServeMux_WF
     newServeMux_domains_initialized rfl (by decide) (by decide),
   c9_bare_root_pattern_panics newServeMux (.user 1) "example.com/" newServeMux_WF
     newServeMux_domains_initialized rfl (by decide) (by decide)⟩
